import Mathlib

/-!
Verification of the Search_Engine backend (crawler, PageRank, query scorer).

The Python source is shallowly embedded: strings are `List Char`, machine
floats are modelled by `ℚ` (all arithmetic in the verified paths is exact),
external stores (Redis, Postgres, Elasticsearch) are explicit state or
abstract maps, and library hash functions (`hashlib.md5`, `hashlib.sha256`)
are opaque parameters, since the code treats them as black boxes.

The embedding of `urllib.parse` (`urlsplit` / `urlparse` / `urlunparse`,
CPython 3.x semantics) is faithful on the fragment the theorems use, with
two documented omissions: the bracketed-host (IPv6) validation and the NFKC
netloc check are not modelled — every theorem below therefore restricts
netlocs to bracket-free ASCII strings — and the `ValueError` raised for a
netloc whose brackets do not pair is modelled as `none`.
-/

namespace SearchEngine

/-- Characters of a string literal, the `List Char` carrier used throughout. -/
def strL (s : String) : List Char := s.data

/-! ### Python string primitives on `List Char` -/

/-- Python `s.split(sep)` for a one-character separator: the pieces between
occurrences of `c`; always at least one piece. -/
def splitChar (c : Char) : List Char → List (List Char)
  | [] => [[]]
  | a :: rest =>
    if a = c then [] :: splitChar c rest
    else
      match splitChar c rest with
      | r :: rs => (a :: r) :: rs
      | [] => [[a]]

/-- Split at the first occurrence of `c`: `(before, some after)` when `c`
occurs, `(l, none)` otherwise.  Models Python `find` + slicing. -/
def splitOnFirst (c : Char) : List Char → List Char × Option (List Char)
  | [] => ([], none)
  | a :: rest =>
    if a = c then ([], some rest)
    else
      match splitOnFirst c rest with
      | (pre, res) => (a :: pre, res)

/-- Split at the last occurrence of `c` (Python `rfind`):
`some (before, after)` when `c` occurs, with `c` not occurring in `after`. -/
def splitOnLast (c : Char) (l : List Char) : Option (List Char × List Char) :=
  match splitOnFirst c l.reverse with
  | (bRev, some aRev) => some (aRev.reverse, bRev.reverse)
  | (_, none) => none

/-- Worker for `dropPat80`; the fuel (initially the list length, enough for
the whole scan) only makes the recursion structural. -/
def dropPat80Fuel : ℕ → List Char → List Char
  | _, [] => []
  | 0, l => l
  | fuel + 1, c :: rest =>
    if c = ':' ∧ rest.take 2 = ['8', '0'] then dropPat80Fuel fuel (rest.drop 2)
    else c :: dropPat80Fuel fuel rest

/-- Python `netloc.replace(":80", "")`: remove every occurrence of `":80"`
left to right, non-overlapping. -/
def dropPat80 (l : List Char) : List Char := dropPat80Fuel l.length l

/-- Worker for `dropPat443`. -/
def dropPat443Fuel : ℕ → List Char → List Char
  | _, [] => []
  | 0, l => l
  | fuel + 1, c :: rest =>
    if c = ':' ∧ rest.take 3 = ['4', '4', '3'] then dropPat443Fuel fuel (rest.drop 3)
    else c :: dropPat443Fuel fuel rest

/-- Python `netloc.replace(":443", "")`: remove every occurrence of `":443"`
left to right, non-overlapping. -/
def dropPat443 (l : List Char) : List Char := dropPat443Fuel l.length l

/-- Python `":80" in s`: some position starts the substring `":80"`. -/
def has80 : List Char → Bool
  | [] => false
  | c :: rest => (c = ':' ∧ rest.take 2 = ['8', '0']) || has80 rest

/-- Python `":443" in s`: some position starts the substring `":443"`. -/
def has443 : List Char → Bool
  | [] => false
  | c :: rest => (c = ':' ∧ rest.take 3 = ['4', '4', '3']) || has443 rest

/-- Python `path.rstrip('/')`: drop every trailing `'/'`. -/
def rstripSlash (l : List Char) : List Char :=
  (l.reverse.dropWhile (fun c => c = '/')).reverse

namespace Urllib

/-! ### `urllib.parse` (CPython 3.x)

`urlsplit` first lstrips WHATWG C0-control-or-space characters, removes the
unsafe bytes tab/CR/LF, then splits off in order: scheme (lowercased, only
when the prefix before the first `':'` is a nonempty ASCII-alpha-led run of
scheme characters), `//netloc` (up to the first of `/?#`), fragment (after
the first `'#'`), and query (after the first `'?'`).  `urlparse`
additionally splits params off the last path segment when the scheme uses
params.  The source raises `ValueError` for a netloc with unpaired
brackets; that is `none` here.  The bracketed-host IPv6 validation and the
NFKC netloc check are not modelled (theorems restrict netlocs to
bracket-free ASCII). -/

/-- `scheme_chars` of `urllib.parse`. -/
def isSchemeChar (c : Char) : Bool :=
  c.isAlpha || c.isDigit || c = '+' || c = '-' || c = '.'

/-- WHATWG C0-control-or-space: code points 0x00–0x20. -/
def isC0OrSpace (c : Char) : Bool := c.val ≤ 32

/-- The unsafe bytes removed from URLs: tab, CR, LF. -/
def isUnsafeByte (c : Char) : Bool := c = '\t' || c = '\r' || c = '\n'

/-- `uses_netloc` of `urllib.parse`. -/
def usesNetloc : List (List Char) :=
  [strL "", strL "ftp", strL "http", strL "gopher", strL "nntp", strL "telnet",
   strL "imap", strL "wais", strL "file", strL "mms", strL "https", strL "shttp",
   strL "snews", strL "prospero", strL "rtsp", strL "rtsps", strL "rtspu",
   strL "rsync", strL "svn", strL "svn+ssh", strL "sftp", strL "nfs",
   strL "git", strL "git+ssh", strL "ws", strL "wss"]

/-- `uses_params` of `urllib.parse`. -/
def usesParams : List (List Char) :=
  [strL "", strL "ftp", strL "hdl", strL "prospero", strL "http", strL "imap",
   strL "https", strL "shttp", strL "rtsp", strL "rtsps", strL "rtspu",
   strL "sip", strL "sips", strL "mms", strL "sftp", strL "tel"]

/-- Result of `urlsplit`: scheme, netloc, path, query, fragment. -/
structure SplitRes where
  scheme : List Char
  netloc : List Char
  path : List Char
  query : List Char
  fragment : List Char
deriving DecidableEq, Repr

/-- Result of `urlparse`: `urlsplit` plus params. -/
structure ParseRes where
  scheme : List Char
  netloc : List Char
  path : List Char
  params : List Char
  query : List Char
  fragment : List Char
deriving DecidableEq, Repr

/-- Scheme extraction step of `urlsplit`: on the first `':'`, if the prefix
is nonempty, starts with an ASCII letter and is all scheme characters, it is
the (lowercased) scheme. -/
def splitScheme (url : List Char) : List Char × List Char :=
  match splitOnFirst ':' url with
  | (pre, some post) =>
    match pre with
    | [] => ([], url)
    | c :: _ =>
      if c.isAlpha ∧ pre.all isSchemeChar then (pre.map Char.toLower, post)
      else ([], url)
  | (_, none) => ([], url)

/-- `_splitnetloc`: the netloc runs to the first of `/`, `?`, `#`. -/
def notNetlocDelim (c : Char) : Bool := ¬ (c = '/' || c = '?' || c = '#')

/-- `urlsplit`.  `none` models the `ValueError` for unpaired brackets in the
netloc. -/
def urlsplitM (url0 : List Char) : Option SplitRes :=
  let url1 := url0.dropWhile isC0OrSpace
  let url2 := url1.filter (fun c => ¬ isUnsafeByte c)
  let (scheme, rest) := splitScheme url2
  let (netloc, rest2) :=
    if rest.take 2 = ['/', '/'] then
      ((rest.drop 2).takeWhile notNetlocDelim, (rest.drop 2).dropWhile notNetlocDelim)
    else ([], rest)
  if ('[' ∈ netloc ∧ ']' ∉ netloc) ∨ (']' ∈ netloc ∧ '[' ∉ netloc) then none
  else
    let (body, fragment) :=
      match splitOnFirst '#' rest2 with
      | (b, some f) => (b, f)
      | (b, none) => (b, [])
    let (path, query) :=
      match splitOnFirst '?' body with
      | (p, some q) => (p, q)
      | (p, none) => (p, [])
    some ⟨scheme, netloc, path, query, fragment⟩

/-- `_splitparams`: split params off the last path segment; with a `'/'`
present, only a `';'` at or after the last `'/'` counts. -/
def splitparams (l : List Char) : List Char × List Char :=
  match splitOnLast '/' l with
  | some (a, b) =>
    match splitOnFirst ';' b with
    | (b1, some b2) => (a ++ '/' :: b1, b2)
    | (_, none) => (l, [])
  | none =>
    match splitOnFirst ';' l with
    | (p1, some p2) => (p1, p2)
    | (_, none) => (l, [])

/-- `urlparse`. -/
def urlparseM (url : List Char) : Option ParseRes :=
  (urlsplitM url).map fun s =>
    if s.scheme ∈ usesParams ∧ ';' ∈ s.path then
      let (p, pr) := splitparams s.path
      ⟨s.scheme, s.netloc, p, pr, s.query, s.fragment⟩
    else ⟨s.scheme, s.netloc, s.path, [], s.query, s.fragment⟩

/-- `urlunsplit`. -/
def urlunsplitM (s n u q f : List Char) : List Char :=
  let u1 :=
    if n ≠ [] ∨ (s ≠ [] ∧ s ∈ usesNetloc ∧ u.take 2 ≠ ['/', '/']) then
      let u2 := if u ≠ [] ∧ u.take 1 ≠ ['/'] then '/' :: u else u
      '/' :: '/' :: (n ++ u2)
    else u
  let u3 := if s ≠ [] then s ++ ':' :: u1 else u1
  let u4 := if q ≠ [] then u3 ++ '?' :: q else u3
  if f ≠ [] then u4 ++ '#' :: f else u4

/-- `urlunparse`. -/
def urlunparseM (s n u params q f : List Char) : List Char :=
  let u1 := if params ≠ [] then u ++ ';' :: params else u
  urlunsplitM s n u1 q f

/-- Optional URL tail piece: a delimiter plus payload, or nothing. -/
def optPart (c : Char) : Option (List Char) → List Char
  | none => []
  | some x => c :: x

end Urllib

namespace Crawler

open Urllib

/-! ### `crawler_service/crawler.py` -/

/-- `WebCrawler._normalize_url`: strip the default port for the scheme,
strip trailing slashes from a non-root path, lowercase the netloc, drop the
fragment, and reassemble.  `none` models a `ValueError` escaping from
`urlparse`. -/
def normalize_url (url : List Char) : Option (List Char) :=
  (urlparseM url).map fun p =>
    let netloc := if has80 p.netloc ∧ p.scheme = strL "http" then dropPat80 p.netloc else p.netloc
    let netloc2 := if has443 netloc ∧ p.scheme = strL "https" then dropPat443 netloc else netloc
    let path := if p.path ≠ ['/'] ∧ p.path.getLast? = some '/' then rstripSlash p.path else p.path
    urlunparseM p.scheme (netloc2.map Char.toLower) path p.params p.query []

/-- `shared/utils.py is_valid_url`: scheme is http or https and the netloc
is nonempty; any parse error counts as invalid. -/
def is_valid_url (url : List Char) : Bool :=
  match urlparseM url with
  | some p => (p.scheme = strL "http" ∨ p.scheme = strL "https") ∧ p.netloc ≠ []
  | none => false

/-- `WebCrawler._calculate_priority`: `depth * 10.0`, plus `0.5` per piece
of `path.split('/')`, minus `5.0` for a root path, minus `1.0` for https,
clamped at `0.0`.  `none` models a `ValueError` escaping from `urlparse`. -/
def calculate_priority (url : List Char) (depth : ℕ) : Option ℚ :=
  (urlparseM url).map fun p =>
    let pr : ℚ := (depth : ℚ) * 10
    let pr := pr + ((splitChar '/' p.path).length : ℚ) * (1/2)
    let pr := if p.path = [] ∨ p.path = ['/'] then pr - 5 else pr
    let pr := if p.scheme = strL "https" then pr - 1 else pr
    max 0 pr

/-- The §3 priority formula as the specification states it, with
`pathSegments` read as the length of `path.split('/')`. -/
def prioritySpec (scheme path : List Char) (depth : ℕ) : ℚ :=
  max 0 ((10 : ℚ) * depth + (1/2) * (path.count '/' + 1)
    - (if path = [] ∨ path = ['/'] then 5 else 0)
    - (if scheme = strL "https" then 1 else 0))

/-! ### Bloom filter (`BloomFilter`, Redis bitmap)

`hashlib.md5(...).hexdigest()` converted to an integer is the opaque
parameter `md5i`; the source derives position `i` from the salted string
`f"{url}:{i}"` reduced mod the bitmap size.  The Redis bitmap is the list
of set bit offsets. -/

namespace Bloom

/-- `BLOOM_FILTER_SIZE`. -/
def size : ℕ := 10000000

/-- `BLOOM_HASH_COUNT`. -/
def hashCount : ℕ := 7

/-- `BloomFilter._get_hash_positions`. -/
def hashPositions (md5i : String → ℕ) (url : String) : List ℕ :=
  (List.range hashCount).map fun i => md5i (url ++ ":" ++ toString i) % size

/-- `BloomFilter.add`: set every derived bit. -/
def add (md5i : String → ℕ) (bits : List ℕ) (url : String) : List ℕ :=
  hashPositions md5i url ++ bits

/-- `BloomFilter.contains`: all derived bits must be set. -/
def contains (md5i : String → ℕ) (bits : List ℕ) (url : String) : Bool :=
  (hashPositions md5i url).all (fun p => p ∈ bits)

end Bloom

/-- `CrawledPage` (the fields the verified paths read). -/
structure CrawledPage where
  url : String
  title : String
  links : List String
  domain : String
deriving DecidableEq, Repr

/-- A `links` table row insert with `ON CONFLICT DO NOTHING`. -/
def insertLinkEdge (db : List (String × String)) (e : String × String) :
    List (String × String) :=
  if e ∈ db then db else db ++ [e]

/-- `WebCrawler._save_links`: insert an edge `(page.url, target)` for each
of the first 100 links (`page.links[:100]`). -/
def save_links (db : List (String × String)) (page : CrawledPage) :
    List (String × String) :=
  (page.links.take 100).foldl (fun d t => insertLinkEdge d (page.url, t)) db

/-- `URLFrontier.add` (Redis `zadd`): upsert the member with its score. -/
def zadd (fr : List (String × ℚ)) (url : String) (p : ℚ) : List (String × ℚ) :=
  (fr.filter (fun e => ¬ e.1 = url)) ++ [(url, p)]

/-- `URLFrontier.add_many`: `zadd` of a mapping built from the pairs. -/
def add_many (fr : List (String × ℚ)) (pairs : List (String × ℚ)) :
    List (String × ℚ) :=
  pairs.foldl (fun f e => zadd f e.1 e.2) fr

/-- `URLFrontier.pop` ordering (Redis `zrange 0 0`): smallest score first,
ties by member string ascending. -/
def popMin (fr : List (String × ℚ)) : Option String :=
  (fr.foldl (fun best e =>
    match best with
    | none => some e
    | some b => if e.2 < b.2 ∨ (e.2 = b.2 ∧ e.1 < b.1) then some e else some b) none).map
    (fun e => e.1)

/-- Crawler configuration: `settings.crawler_max_depth` (default 3). -/
structure Config where
  maxDepth : ℕ
deriving DecidableEq, Repr

/-- The observable side effects of `crawl_url`, in program order. -/
inductive Event where
  | bloomAdd (url : String)
  | fetchStart (url : String)
  | publish (url : String)
  | savedLinks (url : String)
  | enqueued (url : String) (prio : ℚ)
deriving DecidableEq, Repr

/-- Crawler-visible store state: bloom bitmap, frontier sorted set,
indexing queue, `links` table. -/
structure CrawlState where
  bloom : List ℕ
  frontier : List (String × ℚ)
  queue : List CrawledPage
  linkdb : List (String × String)
deriving DecidableEq, Repr

/-- The enqueue loop of `crawl_url`: pair each (not bloom-seen) link with
its priority at `depth + 1`, in order; `none` models a `ValueError`
escaping from `_calculate_priority`. -/
def buildNewUrls (depth : ℕ) : List String → Option (List (String × ℚ))
  | [] => some []
  | l :: rest =>
    match calculate_priority l.data (depth + 1), buildNewUrls depth rest with
    | some p, some acc => some ((l, p) :: acc)
    | _, _ => none

/-- `WebCrawler.crawl_url`: skip a bloom-seen URL, otherwise mark it in the
bloom filter, fetch (`fetch` abstracts `_fetch_page`, `none` being every
skip/error path), publish, save links, and enqueue the discovered links
that are not bloom-seen, at priority `calculate_priority link (depth+1)`,
when `depth < maxDepth`.  The outer `none` models a `ValueError` escaping
from `urlparse` inside `_calculate_priority`; the `Bool` is the return
value. -/
def crawl_url (cfg : Config) (md5i : String → ℕ) (fetch : String → Option CrawledPage)
    (st : CrawlState) (url : String) (depth : ℕ) :
    Option (CrawlState × List Event × Bool) :=
  if Bloom.contains md5i st.bloom url then some (st, [], false)
  else
    let st1 : CrawlState := { st with bloom := Bloom.add md5i st.bloom url }
    match fetch url with
    | none => some (st1, [.bloomAdd url, .fetchStart url], false)
    | some page =>
      let st2 : CrawlState :=
        { st1 with queue := st1.queue ++ [page], linkdb := save_links st1.linkdb page }
      let newUrls? : Option (List (String × ℚ)) :=
        if depth < cfg.maxDepth then
          buildNewUrls depth (page.links.filter (fun l => ¬ Bloom.contains md5i st1.bloom l))
        else some []
      newUrls?.map fun newUrls =>
        let st3 : CrawlState :=
          if newUrls ≠ [] then { st2 with frontier := add_many st2.frontier newUrls } else st2
        (st3,
         [.bloomAdd url, .fetchStart url, .publish page.url, .savedLinks page.url]
           ++ newUrls.map (fun e => .enqueued e.1 e.2),
         true)

/-- `WebCrawler.seed`: normalize each URL and, when valid, add it to the
frontier at priority `0.0`.  The bloom filter is not consulted and not
updated. -/
def seed (st : CrawlState) (urls : List String) : Option CrawlState :=
  urls.foldlM
    (fun s u =>
      (normalize_url u.data).map fun nu =>
        if is_valid_url nu then { s with frontier := zadd s.frontier (String.mk nu) 0 } else s)
    st

/-- One iteration of `WebCrawler.run`: pop the minimum-priority URL and
crawl it.  The call site `self.crawl_url(url, session)` leaves `depth` at
its default `0`. -/
def run_step (cfg : Config) (md5i : String → ℕ) (fetch : String → Option CrawledPage)
    (st : CrawlState) : Option (Option (CrawlState × List Event × Bool)) :=
  match popMin st.frontier with
  | none => some none
  | some url =>
    (crawl_url cfg md5i fetch { st with frontier := st.frontier.filter (fun e => ¬ e.1 = url) }
      url 0).map some

end Crawler

namespace PageRank

/-! ### `ranking_service/pagerank.py`

The link graph loaded from the `links` table, filtered to known pages, is
a set of edges over `Fin n`.  `adj t s = 1` when there is a link from `s`
to `t` (`adj_matrix[target_idx, source_idx] = 1.0`); numpy `float32`
arithmetic is modelled exactly over `ℚ`. -/

variable (n : ℕ)

/-- The adjacency matrix entry `A[t, s]`. -/
def adj (edges : List (Fin n × Fin n)) (t s : Fin n) : ℚ :=
  if (s, t) ∈ edges then 1 else 0

/-- `out_degree = adj_matrix.sum(axis=0)`: column sums. -/
def outDegree (edges : List (Fin n × Fin n)) (s : Fin n) : ℚ :=
  ∑ t, adj n edges t s

/-- `out_degree[out_degree == 0] = 1`: the divisor with dangling columns
replaced by 1. -/
def outDegSafe (edges : List (Fin n × Fin n)) (s : Fin n) : ℚ :=
  if outDegree n edges s = 0 then 1 else outDegree n edges s

/-- `transition_matrix = adj_matrix.multiply(d_inv)`: each column divided
by its safe out-degree. -/
def transition (edges : List (Fin n × Fin n)) (t s : Fin n) : ℚ :=
  adj n edges t s * (1 / outDegSafe n edges s)

/-- `prev_rank[dangling_nodes].sum()`. -/
def danglingSum (edges : List (Fin n × Fin n)) (r : Fin n → ℚ) : ℚ :=
  ∑ s, if outDegree n edges s = 0 then r s else 0

/-- One power-iteration update:
`rank = d·M·prev + d·(Σ_dangling prev)/n + (1−d)/n`. -/
def step (edges : List (Fin n × Fin n)) (d : ℚ) (r : Fin n → ℚ) (t : Fin n) : ℚ :=
  d * (∑ s, transition n edges t s * r s)
    + d * danglingSum n edges r / n
    + (1 - d) / n

/-- The iteration loop with the `diff < 1e-6` early exit (the update is
applied, then the loop breaks when the L1 difference is below threshold). -/
def iterLoop (edges : List (Fin n × Fin n)) (d : ℚ) : ℕ → (Fin n → ℚ) → (Fin n → ℚ)
  | 0, r => r
  | k + 1, r =>
    let r2 := step n edges d r
    if (∑ t, |r2 t - r t|) < 1 / 1000000 then r2 else iterLoop edges d k r2

/-- `PageRankComputer.compute` on a graph with `n` pages: uniform start,
at most `iters` iterations, then `rank = rank / rank.sum()`. -/
def compute (edges : List (Fin n × Fin n)) (d : ℚ) (iters : ℕ) : Fin n → ℚ :=
  let r0 : Fin n → ℚ := fun _ => 1 / n
  let rr := iterLoop n edges d iters r0
  fun t => rr t / (∑ u, rr u)

/-- `PageRankComputer.store_scores` key for a URL: `pagerank:` plus the
first 16 characters of `url_to_hash(url)`; `sha` abstracts
`hashlib.sha256(url.encode()).hexdigest()`. -/
def url_to_hash (sha : String → String) (url : String) : String := sha url

/-- The Redis key written by `store_scores`. -/
def storeKey (sha : String → String) (url : String) : String :=
  "pagerank:" ++ (url_to_hash sha url).take 16

end PageRank

namespace Query

/-! ### `search_api/main.py` query scoring glue -/

/-- A full-text hit as `_apply_pagerank_boost` sees it. -/
structure Hit where
  url : String
  score : ℚ
  pagerank : Option ℚ
deriving DecidableEq, Repr

/-- The Redis key read by `_apply_pagerank_boost`:
`pagerank:` plus `hashlib.sha256(url.encode()).hexdigest()[:16]`. -/
def readKey (sha : String → String) (url : String) : String :=
  "pagerank:" ++ (sha url).take 16

/-- The per-hit update of `_apply_pagerank_boost`: with a stored PageRank
the score becomes `0.7·score + 0.3·pagerank·100` and the `pagerank` field
is set; otherwise the hit is unchanged.  `kv` abstracts the Redis string
store (`none` covers both a missing key and an unparsable value). -/
def boostOne (sha : String → String) (kv : String → Option ℚ) (r : Hit) : Hit :=
  match kv (readKey sha r.url) with
  | some pr => { r with score := 7/10 * r.score + 3/10 * pr * 100, pagerank := some pr }
  | none => r

/-- Stable insertion into a list sorted by descending score (an element is
placed before the first strictly smaller score). -/
def insertDesc (x : Hit) : List Hit → List Hit
  | [] => [x]
  | y :: ys => if y.score < x.score then x :: y :: ys else y :: insertDesc x ys

/-- Stable sort by descending score; `results.sort(key=..., reverse=True)`
is Python's stable sort, and a stable sort by one key is unique, so this
insertion sort produces the identical list. -/
def sortDesc : List Hit → List Hit
  | [] => []
  | x :: xs => insertDesc x (sortDesc xs)

/-- `_apply_pagerank_boost`: update every hit, then re-sort the page by
descending blended score. -/
def apply_pagerank_boost (sha : String → String) (kv : String → Option ℚ)
    (results : List Hit) : List Hit :=
  sortDesc (results.map (boostOne sha kv))

/-- The update rule as §4.6 of the specification states it. -/
def boostSpec (sha : String → String) (kv : String → Option ℚ) (r : Hit) : Hit :=
  match kv ("pagerank:" ++ (sha r.url).take 16) with
  | some pr => { r with score := (7/10 : ℚ) * r.score + 3/10 * (pr * 100), pagerank := some pr }
  | none => r

end Query

/-! ## General lemmas -/

theorem toNat_toLower (c : Char) :
    (Char.toLower c).toNat = if 65 ≤ c.toNat ∧ c.toNat ≤ 90 then c.toNat + 32 else c.toNat := by
  unfold Char.toLower
  split
  · next h =>
    rw [if_pos ⟨h.1, h.2⟩]
    have hv : (c.toNat + 32).isValidChar := Or.inl (by omega)
    rw [Char.ofNat, dif_pos hv]
    simp [Char.ofNatAux, Char.toNat, UInt32.toNat]
  · next h =>
    rw [if_neg (by exact fun hc => h ⟨hc.1, hc.2⟩)]

theorem char_eq_iff_toNat (a b : Char) : a = b ↔ a.toNat = b.toNat := by
  constructor
  · intro h; rw [h]
  · intro h
    exact Char.eq_of_val_eq (UInt32.toNat.inj h)

theorem toLower_idem (c : Char) : (Char.toLower c).toLower = Char.toLower c := by
  rw [char_eq_iff_toNat, toNat_toLower, toNat_toLower]
  split_ifs <;> omega

/-- For a target character that is not a basic latin letter, `toLower c = d`
exactly when `c = d`. -/
theorem toLower_eq_nonletter (c d : Char)
    (hd : d.toNat < 65 ∨ (90 < d.toNat ∧ d.toNat < 97) ∨ 122 < d.toNat) :
    Char.toLower c = d ↔ c = d := by
  rw [char_eq_iff_toNat, char_eq_iff_toNat, toNat_toLower]
  split <;> omega

theorem insertLinkEdge_mem {db : List (String × String)} {e x : String × String} :
    x ∈ Crawler.insertLinkEdge db e ↔ x ∈ db ∨ x = e := by
  unfold Crawler.insertLinkEdge
  split
  · next h =>
    constructor
    · exact fun hx => Or.inl hx
    · rintro (hx | rfl)
      · exact hx
      · exact h
  · simp [List.mem_append]

theorem save_links_fold_preserves {url : String} (ts : List String)
    (db : List (String × String)) (e : String × String) (h : e ∈ db) :
    e ∈ ts.foldl (fun d t => Crawler.insertLinkEdge d (url, t)) db := by
  induction ts generalizing db with
  | nil => exact h
  | cons a rest ih =>
    exact ih _ (insertLinkEdge_mem.mpr (Or.inl h))

theorem save_links_fold_mem {url : String} (ts : List String)
    (db : List (String × String)) (e : String × String)
    (h : e ∈ ts.foldl (fun d t => Crawler.insertLinkEdge d (url, t)) db) :
    e ∈ db ∨ (e.1 = url ∧ e.2 ∈ ts) := by
  induction ts generalizing db with
  | nil => exact Or.inl h
  | cons t rest ih =>
    rcases ih _ h with h1 | h2
    · rcases insertLinkEdge_mem.mp h1 with h3 | rfl
      · exact Or.inl h3
      · exact Or.inr ⟨rfl, List.mem_cons_self _ _⟩
    · exact Or.inr ⟨h2.1, List.mem_cons_of_mem _ h2.2⟩

theorem save_links_fold_covers {url : String} (ts : List String)
    (db : List (String × String)) (t : String) (h : t ∈ ts) :
    (url, t) ∈ ts.foldl (fun d t => Crawler.insertLinkEdge d (url, t)) db := by
  induction ts generalizing db with
  | nil => cases h
  | cons a rest ih =>
    rcases List.mem_cons.mp h with rfl | h2
    · rw [List.foldl_cons]
      exact save_links_fold_preserves _ _ _ (insertLinkEdge_mem.mpr (Or.inr rfl))
    · exact ih _ h2

theorem splitChar_ne_nil (c : Char) (l : List Char) : splitChar c l ≠ [] := by
  cases l with
  | nil => simp [splitChar]
  | cons a rest =>
    unfold splitChar
    split
    · simp
    · cases h : splitChar c rest with
      | nil => simp
      | cons r rs => simp

theorem splitChar_length (c : Char) (l : List Char) :
    (splitChar c l).length = l.count c + 1 := by
  induction l with
  | nil => simp [splitChar]
  | cons a rest ih =>
    unfold splitChar
    split
    · next h =>
      subst h
      simp [List.count_cons, ih]
    · next h =>
      cases h2 : splitChar c rest with
      | nil => exact absurd h2 (splitChar_ne_nil c rest)
      | cons r rs =>
        have : (r :: rs).length = rest.count c + 1 := h2 ▸ ih
        simp only [List.length_cons] at this ⊢
        simp [List.count_cons, Ne.symm h, this]

theorem insertDesc_perm (x : Query.Hit) (l : List Query.Hit) :
    (Query.insertDesc x l).Perm (x :: l) := by
  induction l with
  | nil => exact List.Perm.refl _
  | cons y ys ih =>
    unfold Query.insertDesc
    split
    · exact List.Perm.refl _
    · exact ((ih.cons y).trans (List.Perm.swap x y ys)).symm.symm

theorem sortDesc_perm (l : List Query.Hit) : (Query.sortDesc l).Perm l := by
  induction l with
  | nil => exact List.Perm.refl _
  | cons x xs ih =>
    exact (insertDesc_perm x (Query.sortDesc xs)).trans (ih.cons x)

theorem insertDesc_sorted (x : Query.Hit) (l : List Query.Hit)
    (h : l.Sorted (fun a b => b.score ≤ a.score)) :
    (Query.insertDesc x l).Sorted (fun a b => b.score ≤ a.score) := by
  induction l with
  | nil => simp [Query.insertDesc]
  | cons y ys ih =>
    rw [List.sorted_cons] at h
    unfold Query.insertDesc
    split
    · next hlt =>
      rw [List.sorted_cons]
      refine ⟨?_, List.sorted_cons.mpr h⟩
      intro b hb
      rcases List.mem_cons.mp hb with rfl | hb2
      · exact le_of_lt hlt
      · exact le_trans (h.1 b hb2) (le_of_lt hlt)
    · next hge =>
      rw [List.sorted_cons]
      refine ⟨?_, ih h.2⟩
      intro b hb
      rcases List.mem_cons.mp ((insertDesc_perm x ys).mem_iff.mp hb) with rfl | h3
      · exact le_of_not_lt hge
      · exact h.1 b h3

theorem sortDesc_sorted (l : List Query.Hit) :
    (Query.sortDesc l).Sorted (fun a b => b.score ≤ a.score) := by
  induction l with
  | nil => simp [Query.sortDesc]
  | cons x xs ih => exact insertDesc_sorted x _ ih

theorem zadd_mem_self (fr : List (String × ℚ)) (u : String) (p : ℚ) :
    (u, p) ∈ Crawler.zadd fr u p := by
  unfold Crawler.zadd
  exact List.mem_append_right _ (List.mem_singleton.mpr rfl)

theorem zadd_mem_of_ne (fr : List (String × ℚ)) (u : String) (p : ℚ)
    (x : String × ℚ) (hx : x ∈ fr) (hne : ¬ x.1 = u) : x ∈ Crawler.zadd fr u p := by
  unfold Crawler.zadd
  refine List.mem_append_left _ ?_
  rw [List.mem_filter]
  exact ⟨hx, by simpa using hne⟩

theorem add_many_preserves (pairs : List (String × ℚ)) (fr : List (String × ℚ))
    (x : String × ℚ) (hx : x ∈ fr) (hk : ∀ e ∈ pairs, ¬ e.1 = x.1) :
    x ∈ Crawler.add_many fr pairs := by
  induction pairs generalizing fr with
  | nil => exact hx
  | cons e rest ih =>
    refine ih _ (zadd_mem_of_ne _ _ _ _ hx ?_) (fun e2 he2 => hk e2 (List.mem_cons_of_mem _ he2))
    intro hx1
    exact hk e (List.mem_cons_self _ _) (by rw [hx1])

theorem add_many_mem (pairs : List (String × ℚ)) (fr : List (String × ℚ))
    (l : String) (p : ℚ) (hin : (l, p) ∈ pairs)
    (huniq : ∀ q : ℚ, (l, q) ∈ pairs → q = p) :
    (l, p) ∈ Crawler.add_many fr pairs := by
  induction pairs generalizing fr with
  | nil => cases hin
  | cons e rest ih =>
    show (l, p) ∈ Crawler.add_many (Crawler.zadd fr e.1 e.2) rest
    by_cases hmem : (l, p) ∈ rest
    · exact ih _ hmem (fun q hq => huniq q (List.mem_cons_of_mem _ hq))
    · have he : e = (l, p) := by
        rcases List.mem_cons.mp hin with h | h
        · exact h.symm
        · exact absurd h hmem
      subst he
      refine add_many_preserves rest _ (l, p) (zadd_mem_self fr l p) ?_
      intro e2 he2 h1
      have : (l, e2.2) ∈ rest := by
        have : e2 = (l, e2.2) := Prod.ext h1 rfl
        rw [← this]; exact he2
      have := huniq e2.2 (List.mem_cons_of_mem _ this)
      subst this
      exact hmem (by simpa using ‹(l, e2.2) ∈ rest›)

theorem buildNewUrls_mem (depth : ℕ) (ls : List String) (ys : List (String × ℚ))
    (h : Crawler.buildNewUrls depth ls = some ys) (l : String) (hl : l ∈ ls) :
    ∃ p : ℚ, Crawler.calculate_priority l.data (depth + 1) = some p ∧ (l, p) ∈ ys := by
  induction ls generalizing ys with
  | nil => cases hl
  | cons a rest ih =>
    unfold Crawler.buildNewUrls at h
    cases hp : Crawler.calculate_priority a.data (depth + 1) with
    | none => rw [hp] at h; cases h
    | some p =>
      cases hb : Crawler.buildNewUrls depth rest with
      | none => rw [hp, hb] at h; cases h
      | some acc =>
        rw [hp, hb] at h
        cases h
        rcases List.mem_cons.mp hl with rfl | h2
        · exact ⟨p, hp, List.mem_cons_self _ _⟩
        · obtain ⟨p2, hp2, hm2⟩ := ih acc hb h2
          exact ⟨p2, hp2, List.mem_cons_of_mem _ hm2⟩

theorem buildNewUrls_key (depth : ℕ) (ls : List String) (ys : List (String × ℚ))
    (h : Crawler.buildNewUrls depth ls = some ys) (l : String) (p : ℚ)
    (hp : (l, p) ∈ ys) :
    Crawler.calculate_priority l.data (depth + 1) = some p := by
  induction ls generalizing ys with
  | nil =>
    unfold Crawler.buildNewUrls at h
    cases h
    cases hp
  | cons a rest ih =>
    unfold Crawler.buildNewUrls at h
    cases hpa : Crawler.calculate_priority a.data (depth + 1) with
    | none => rw [hpa] at h; cases h
    | some pa =>
      cases hb : Crawler.buildNewUrls depth rest with
      | none => rw [hpa, hb] at h; cases h
      | some acc =>
        rw [hpa, hb] at h
        cases h
        rcases List.mem_cons.mp hp with heq | h2
        · cases heq
          exact hpa
        · exact ih acc hb h2

section PageRankLemmas

open PageRank

variable (n : ℕ) (edges : List (Fin n × Fin n)) (d : ℚ)

theorem sum_transition_col (s : Fin n) :
    ∑ t, transition n edges t s = if outDegree n edges s = 0 then 0 else 1 := by
  unfold transition
  rw [← Finset.sum_mul]
  rw [show (∑ t, adj n edges t s) = outDegree n edges s from rfl]
  unfold outDegSafe
  split
  · next h => rw [h]; ring
  · next h => field_simp

theorem sum_step (r : Fin n → ℚ) (hn : 0 < n) :
    ∑ t, step n edges d r t = d * (∑ s, r s) + (1 - d) := by
  have hcast : (n : ℚ) ≠ 0 := (Nat.cast_pos.mpr hn).ne'
  unfold step
  rw [Finset.sum_add_distrib, Finset.sum_add_distrib]
  have h1 : ∑ t, d * (∑ s, transition n edges t s * r s)
      = d * ∑ s, (if outDegree n edges s = 0 then 0 else 1) * r s := by
    rw [← Finset.mul_sum, Finset.sum_comm]
    congr 1
    refine Finset.sum_congr rfl fun s _ => ?_
    rw [← Finset.sum_mul, sum_transition_col]
  have h2 : ∑ _t : Fin n, d * danglingSum n edges r / (n : ℚ)
      = d * danglingSum n edges r := by
    rw [Finset.sum_const, Finset.card_univ, Fintype.card_fin, nsmul_eq_mul]
    field_simp
  have h3 : ∑ _t : Fin n, (1 - d) / (n : ℚ) = 1 - d := by
    rw [Finset.sum_const, Finset.card_univ, Fintype.card_fin, nsmul_eq_mul]
    field_simp
  rw [h1, h2, h3]
  unfold danglingSum
  have hsplit : (∑ s, (if outDegree n edges s = 0 then 0 else 1) * r s)
      + (∑ s, if outDegree n edges s = 0 then r s else 0) = ∑ s, r s := by
    rw [← Finset.sum_add_distrib]
    refine Finset.sum_congr rfl fun s _ => ?_
    split <;> ring
  linear_combination d * hsplit

theorem iterLoop_sum (k : ℕ) (r : Fin n → ℚ) (hn : 0 < n) (hr : ∑ s, r s = 1) :
    ∑ s, iterLoop n edges d k r s = 1 := by
  induction k generalizing r with
  | zero => exact hr
  | succ k ih =>
    show ∑ s, (if (∑ t, |step n edges d r t - r t|) < 1 / 1000000
        then step n edges d r else iterLoop n edges d k (step n edges d r)) s = 1
    split
    · rw [sum_step n edges d r hn, hr]; ring
    · exact ih _ (by rw [sum_step n edges d r hn, hr]; ring)

theorem compute_sum (iters : ℕ) (hn : 0 < n) :
    ∑ t, compute n edges d iters t = 1 := by
  have hr0 : ∑ _s : Fin n, (1 : ℚ) / n = 1 := by
    rw [Finset.sum_const, Finset.card_univ, Fintype.card_fin, nsmul_eq_mul]
    field_simp
  have hs : ∑ u, iterLoop n edges d iters (fun _ => 1 / n) u = 1 :=
    iterLoop_sum n edges d iters _ hn hr0
  unfold compute
  rw [← Finset.sum_div, hs]
  norm_num

theorem adj_nonneg (t s : Fin n) : 0 ≤ adj n edges t s := by
  unfold adj; split <;> norm_num

theorem outDegSafe_pos (s : Fin n) : 0 < outDegSafe n edges s := by
  unfold outDegSafe
  split
  · norm_num
  · next h =>
    refine lt_of_le_of_ne ?_ (Ne.symm h)
    exact Finset.sum_nonneg fun t _ => adj_nonneg n edges t s

theorem transition_nonneg (t s : Fin n) : 0 ≤ transition n edges t s :=
  mul_nonneg (adj_nonneg n edges t s)
    (le_of_lt (one_div_pos.mpr (outDegSafe_pos n edges s)))

theorem danglingSum_nonneg (r : Fin n → ℚ) (hr : ∀ s, 0 ≤ r s) :
    0 ≤ danglingSum n edges r := by
  refine Finset.sum_nonneg fun s _ => ?_
  split
  · exact hr s
  · exact le_refl 0

theorem step_ge (r : Fin n → ℚ) (hn : 0 < n) (hd0 : 0 ≤ d)
    (hr : ∀ s, 0 ≤ r s) (t : Fin n) :
    (1 - d) / n ≤ step n edges d r t := by
  have hncast : (0:ℚ) < n := Nat.cast_pos.mpr hn
  have h1 : 0 ≤ d * (∑ s, transition n edges t s * r s) :=
    mul_nonneg hd0 (Finset.sum_nonneg fun s _ =>
      mul_nonneg (transition_nonneg n edges t s) (hr s))
  have h2 : 0 ≤ d * danglingSum n edges r / n :=
    div_nonneg (mul_nonneg hd0 (danglingSum_nonneg n edges r hr)) (le_of_lt hncast)
  unfold step
  linarith

theorem iterLoop_ge (k : ℕ) (r : Fin n → ℚ) (hn : 0 < n) (hd0 : 0 ≤ d) (hd1 : d ≤ 1)
    (hr0 : ∀ s, 0 ≤ r s) (hrb : ∀ t, (1 - d) / n ≤ r t) (t : Fin n) :
    (1 - d) / n ≤ iterLoop n edges d k r t := by
  have hncast : (0:ℚ) < n := Nat.cast_pos.mpr hn
  have hfloor : (0:ℚ) ≤ (1 - d) / n := div_nonneg (by linarith) (le_of_lt hncast)
  induction k generalizing r with
  | zero => exact hrb t
  | succ k ih =>
    show (1 - d) / n ≤ (if (∑ u, |step n edges d r u - r u|) < 1 / 1000000
        then step n edges d r else iterLoop n edges d k (step n edges d r)) t
    split
    · exact step_ge n edges d r hn hd0 hr0 t
    · exact ih _ (fun s => le_trans hfloor (step_ge n edges d r hn hd0 hr0 s))
        (fun s => step_ge n edges d r hn hd0 hr0 s)

end PageRankLemmas

/-! ## Claims -/

/-- C9: the PageRank writer (`store_scores`) and the query-time reader
(`_apply_pagerank_boost`) derive the identical Redis key for every URL:
`pagerank:` followed by the first 16 hex characters of the SHA-256
fingerprint of the URL, for any hex digest function `sha`. -/
theorem store_read_key_agree (sha : String → String) (url : String) :
    PageRank.storeKey sha url = Query.readKey sha url := rfl

/-- C7: the bloom filter has no false negatives — after `add url` the test
`contains url` returns `true` for every prior bitmap state and every hash
function; the filter derives exactly `k = 7` bit positions; and `contains`
returns `true` precisely when all of those positions are set. -/
theorem bloom_no_false_negative (md5i : String → ℕ) (bits : List ℕ) (url : String) :
    Crawler.Bloom.contains md5i (Crawler.Bloom.add md5i bits url) url = true
    ∧ (Crawler.Bloom.hashPositions md5i url).length = 7
    ∧ (Crawler.Bloom.contains md5i bits url = true
        ↔ ∀ p ∈ Crawler.Bloom.hashPositions md5i url, p ∈ bits) := by
  refine ⟨?_, by simp [Crawler.Bloom.hashPositions, Crawler.Bloom.hashCount], ?_⟩
  · simp only [Crawler.Bloom.contains, Crawler.Bloom.add, List.all_eq_true,
      decide_eq_true_eq]
    intro p hp
    exact List.mem_append_left _ hp
  · simp [Crawler.Bloom.contains, List.all_eq_true]

/-- C10: `_save_links` writes at most the first 100 links of a page as
edges: every edge present after the call was already in the table or is
`(page.url, t)` for a link `t` among `page.links[:100]`, and every link in
`page.links[:100]` does get its edge. -/
theorem save_links_first_100 (db : List (String × String)) (page : Crawler.CrawledPage) :
    (∀ e ∈ Crawler.save_links db page,
        e ∈ db ∨ (e.1 = page.url ∧ e.2 ∈ page.links.take 100))
    ∧ (∀ t ∈ page.links.take 100, (page.url, t) ∈ Crawler.save_links db page) := by
  constructor
  · intro e he
    exact save_links_fold_mem _ _ _ he
  · intro t ht
    exact save_links_fold_covers _ _ _ ht

/-- `_calculate_priority` computes the §3 formula (helper shared by the
claim theorem and by concrete evaluations). -/
theorem calculate_priority_spec (url : List Char) (d : ℕ) (p : Urllib.ParseRes)
    (h : Urllib.urlparseM url = some p) :
    Crawler.calculate_priority url d = some (Crawler.prioritySpec p.scheme p.path d)
    ∧ ∀ q : ℚ, Crawler.calculate_priority url d = some q → 0 ≤ q := by
  have hmain : Crawler.calculate_priority url d
      = some (Crawler.prioritySpec p.scheme p.path d) := by
    simp only [Crawler.calculate_priority, h, Option.map_some']
    congr 1
    rw [Crawler.prioritySpec, splitChar_length]
    congr 1
    have hc : ((p.path.count '/' + 1 : ℕ) : ℚ) = (p.path.count '/' : ℚ) + 1 := by
      push_cast; ring
    split_ifs <;> (rw [hc]; ring)
  refine ⟨hmain, ?_⟩
  intro q hq
  rw [hmain] at hq
  cases hq
  exact le_max_left 0 _

/-- C8: for every URL that parses and every depth, `_calculate_priority`
computes exactly the §3 formula
`max(0, 10·depth + 0.5·pathSegments − 5·[root path] − 1·[https])` with
`pathSegments = len(path.split('/')) = count of '/' + 1`, and the result is
never negative. -/
theorem priority_formula (url : List Char) (d : ℕ) (p : Urllib.ParseRes)
    (h : Urllib.urlparseM url = some p) :
    Crawler.calculate_priority url d = some (Crawler.prioritySpec p.scheme p.path d)
    ∧ ∀ q : ℚ, Crawler.calculate_priority url d = some q → 0 ≤ q :=
  calculate_priority_spec url d p h

set_option maxHeartbeats 4000000 in
/-- The parse of a concrete https URL, computed once for witnesses. -/
theorem urlparse_example_ab :
    Urllib.urlparseM (strL "https://example.com/a/b")
      = some ⟨strL "https", strL "example.com", strL "/a/b", [], [], []⟩ := by decide

set_option maxHeartbeats 4000000 in
/-- Witness for C8 at `https://example.com/a/b` and depth 2: the parse is
concrete and the priority equals the formula value and is nonnegative. -/
theorem priority_formula_witness :
    Urllib.urlparseM (strL "https://example.com/a/b")
      = some ⟨strL "https", strL "example.com", strL "/a/b", [], [], []⟩
    ∧ (Crawler.calculate_priority (strL "https://example.com/a/b") 2
        = some (Crawler.prioritySpec (strL "https") (strL "/a/b") 2)
      ∧ ∀ q : ℚ, Crawler.calculate_priority (strL "https://example.com/a/b") 2 = some q
          → 0 ≤ q) :=
  ⟨urlparse_example_ab,
   priority_formula (strL "https://example.com/a/b") 2
     ⟨strL "https", strL "example.com", strL "/a/b", [], [], []⟩ urlparse_example_ab⟩

/-- C1 (amended): `crawl_url` admits a popped URL to fetch exactly when the
bloom filter test returns `false` — being a seed grants no bypass — and
when admitted, the URL is added to the bloom filter strictly before the
fetch begins (the trace starts `bloomAdd, fetchStart`). -/
theorem crawl_admission (cfg : Crawler.Config) (md5i : String → ℕ)
    (fetch : String → Option Crawler.CrawledPage) (st : Crawler.CrawlState)
    (url : String) (depth : ℕ) (res : Crawler.CrawlState × List Crawler.Event × Bool)
    (h : Crawler.crawl_url cfg md5i fetch st url depth = some res) :
    ((Crawler.Event.fetchStart url ∈ res.2.1)
        ↔ Crawler.Bloom.contains md5i st.bloom url = false)
    ∧ (Crawler.Bloom.contains md5i st.bloom url = true → res = (st, [], false))
    ∧ (Crawler.Bloom.contains md5i st.bloom url = false →
        res.2.1.take 2 = [Crawler.Event.bloomAdd url, Crawler.Event.fetchStart url]
        ∧ res.1.bloom = Crawler.Bloom.add md5i st.bloom url) := by
  unfold Crawler.crawl_url at h
  by_cases hc : Crawler.Bloom.contains md5i st.bloom url = true
  · simp only [hc, if_true] at h
    cases h
    refine ⟨by simp [hc], fun _ => rfl, fun hff => ?_⟩
    rw [hc] at hff
    cases hff
  · have hc2 : Crawler.Bloom.contains md5i st.bloom url = false := by
      revert hc
      cases Crawler.Bloom.contains md5i st.bloom url <;> simp
    simp only [hc2, Bool.false_eq_true, if_false] at h
    cases hf : fetch url with
    | none =>
      simp only [hf] at h
      cases h
      exact ⟨by simp [hc2], fun htt => absurd htt hc, fun _ => ⟨rfl, rfl⟩⟩
    | some page =>
      simp only [hf] at h
      rcases Option.map_eq_some'.mp h with ⟨newUrls, hb, hres⟩
      refine ⟨?_, fun htt => absurd htt hc, fun _ => ⟨?_, ?_⟩⟩
      · rw [← hres]
        simp [hc2]
      · rw [← hres]
        rfl
      · rw [← hres]
        by_cases hne : newUrls = []
        · simp [hne]
        · simp [hne]

/-- C2 (amended): when `crawl_url` fetches a page at depth `d < maxDepth`,
every discovered link not already in the bloom filter (after the parent is
marked) is enqueued with priority computed at depth `d + 1`; at
`d ≥ maxDepth` nothing is enqueued; and one iteration of the `run` loop
always invokes `crawl_url` at depth `0`, so frontier URLs are treated as
depth 0 regardless of their true link distance. -/
theorem crawl_enqueue (cfg : Crawler.Config) (md5i : String → ℕ)
    (fetch : String → Option Crawler.CrawledPage) (st : Crawler.CrawlState)
    (url : String) (depth : ℕ) (st2 : Crawler.CrawlState) (tr : List Crawler.Event)
    (h : Crawler.crawl_url cfg md5i fetch st url depth = some (st2, tr, true)) :
    (∃ page, fetch url = some page
      ∧ (depth < cfg.maxDepth →
          ∀ l ∈ page.links,
            Crawler.Bloom.contains md5i (Crawler.Bloom.add md5i st.bloom url) l = false →
            ∃ p : ℚ, Crawler.calculate_priority l.data (depth + 1) = some p
              ∧ (l, p) ∈ st2.frontier)
      ∧ (cfg.maxDepth ≤ depth → st2.frontier = st.frontier))
    ∧ (∀ st3 : Crawler.CrawlState, ∀ u : String,
        Crawler.popMin st3.frontier = some u →
        Crawler.run_step cfg md5i fetch st3
          = (Crawler.crawl_url cfg md5i fetch
              { st3 with frontier := st3.frontier.filter (fun e => ¬ e.1 = u) } u 0).map
              some) := by
  constructor
  · unfold Crawler.crawl_url at h
    by_cases hc : Crawler.Bloom.contains md5i st.bloom url = true
    · simp only [hc, if_true] at h
      injection h with h2
      rw [Prod.mk.injEq, Prod.mk.injEq] at h2
      cases h2.2.2
    · have hc2 : Crawler.Bloom.contains md5i st.bloom url = false := by
        revert hc
        cases Crawler.Bloom.contains md5i st.bloom url <;> simp
      simp only [hc2, Bool.false_eq_true, if_false] at h
      cases hf : fetch url with
      | none =>
        simp only [hf] at h
        injection h with h2
        rw [Prod.mk.injEq, Prod.mk.injEq] at h2
        cases h2.2.2
      | some page =>
        simp only [hf] at h
        refine ⟨page, rfl, ?_, ?_⟩
        · intro hdlt l hl hnotseen
          rw [if_pos hdlt] at h
          rcases Option.map_eq_some'.mp h with ⟨newUrls, hb, hres⟩
          have hlf : l ∈ page.links.filter
              (fun l => ¬ Crawler.Bloom.contains md5i
                (Crawler.Bloom.add md5i st.bloom url) l) := by
            rw [List.mem_filter]
            exact ⟨hl, by simp [hnotseen]⟩
          obtain ⟨p, hp, hmem⟩ := buildNewUrls_mem depth _ newUrls hb l hlf
          refine ⟨p, hp, ?_⟩
          have hne : newUrls ≠ [] := by
            intro hnil
            rw [hnil] at hmem
            cases hmem
          have hfst := congrArg (fun z => z.1.frontier) hres
          simp only [if_pos hne] at hfst
          rw [← hfst]
          refine add_many_mem newUrls st.frontier l p hmem ?_
          intro q hq
          have hkey := buildNewUrls_key depth _ newUrls hb l q hq
          rw [hp] at hkey
          cases hkey
          rfl
        · intro hdge
          rw [if_neg (by omega)] at h
          simp only [Option.map_some'] at h
          injection h with h2
          have hfst := congrArg (fun z => z.1.frontier) h2
          simp at hfst
          exact hfst.symm
  · intro st3 u hpop
    unfold Crawler.run_step
    rw [hpop]

/-- A computable stand-in for the md5 integer digest in concrete scenarios
(the crawl theorems hold for every digest function). -/
def lenHash : String → ℕ := String.length

/-- The URL of the C1 counterexample scenario: it is seeded and already in
the bloom filter, for instance crawled once before a worker restart. -/
def cxU : String := "http://seed.example"

/-- The seed list of the C1 counterexample scenario. -/
def cxSeeds : List String := [cxU]

/-- Bloom bitmap with `cxU` marked. -/
def cxBloom : List ℕ := Crawler.Bloom.add lenHash [] cxU

/-- The C1 counterexample state: `cxU` is in the frontier and in the bloom
filter. -/
def cxSt : Crawler.CrawlState := ⟨cxBloom, [(cxU, 0)], [], []⟩

/-- Default crawler configuration (`crawler_max_depth = 3`). -/
def cxCfg : Crawler.Config := ⟨3⟩

/-- A fetcher for the skip scenario (never consulted before the bloom
gate). -/
def cxFetch : String → Option Crawler.CrawledPage := fun _ => none

set_option maxHeartbeats 4000000 in
/-- C1 counterexample: the URL `cxU` was inserted by `seed`, sits in the
frontier (and is what `pop` returns), and is in the bloom filter; the crawl
step does not admit it to fetch (it returns immediately with an empty
trace), contradicting the claim that a popped URL is admitted iff the bloom
test returns false **or the URL is a seed** — seed status grants no
bypass in `crawl_url`. -/
theorem crawl_admission_counterexample :
    Crawler.seed ⟨cxBloom, [], [], []⟩ cxSeeds = some cxSt
    ∧ cxU ∈ cxSeeds
    ∧ Crawler.popMin cxSt.frontier = some cxU
    ∧ Crawler.crawl_url cxCfg lenHash cxFetch cxSt cxU 0 = some (cxSt, [], false)
    ∧ ¬ ((Crawler.Event.fetchStart cxU ∈ ([] : List Crawler.Event))
          ↔ (Crawler.Bloom.contains lenHash cxSt.bloom cxU = false ∨ cxU ∈ cxSeeds)) := by
  refine ⟨by decide, by decide, by decide, by decide, ?_⟩
  intro hiff
  exact absurd (hiff.mpr (Or.inr (by decide))) (by decide)

/-- Crawled URL of the witness scenarios. -/
def w1U : String := "http://a"

/-- Discovered link of the witness scenarios. -/
def w1L : String := "http://bb/c"

/-- The fetched page of the witness scenarios: one discovered link. -/
def w1Page : Crawler.CrawledPage := ⟨w1U, "t", [w1L], "a"⟩

/-- Fetcher of the witness scenarios. -/
def w1Fetch : String → Option Crawler.CrawledPage :=
  fun s => if s = w1U then some w1Page else none

/-- Initial empty state of the witness scenarios. -/
def w1St : Crawler.CrawlState := ⟨[], [], [], []⟩

/-- Resulting state of the witness crawl: bloom marked, link enqueued at
priority 11, page queued, edge saved. -/
def w1St2 : Crawler.CrawlState :=
  ⟨Crawler.Bloom.add lenHash [] w1U, [(w1L, 11)], [w1Page], [(w1U, w1L)]⟩

/-- Resulting trace of the witness crawl. -/
def w1Tr : List Crawler.Event :=
  [.bloomAdd w1U, .fetchStart w1U, .publish w1U, .savedLinks w1U, .enqueued w1L 11]

set_option maxHeartbeats 4000000 in
/-- The parse of the witness link, computed concretely. -/
theorem w1L_parse :
    Urllib.urlparseM w1L.data = some ⟨strL "http", strL "bb", strL "/c", [], [], []⟩ := by
  decide

/-- The witness link priority at depth 1: `10·1 + 0.5·2 = 11`. -/
theorem w1L_priority : Crawler.calculate_priority w1L.data 1 = some 11 := by
  rw [(calculate_priority_spec w1L.data 1
    ⟨strL "http", strL "bb", strL "/c", [], [], []⟩ w1L_parse).1]
  congr 1
  unfold Crawler.prioritySpec
  have hcount : (strL "/c").count '/' = 1 := by decide
  rw [hcount, if_neg (by decide), if_neg (by decide)]
  rw [max_eq_right (by norm_num)]
  norm_num

set_option maxHeartbeats 4000000 in
/-- The witness crawl computed concretely. -/
theorem w1_crawl_eq :
    Crawler.crawl_url cxCfg lenHash w1Fetch w1St w1U 0 = some (w1St2, w1Tr, true) := by
  have hc : Crawler.Bloom.contains lenHash w1St.bloom w1U = false := by decide
  have hf : w1Fetch w1U = some w1Page := by decide
  have hfilter : w1Page.links.filter
      (fun l => ¬ Crawler.Bloom.contains lenHash
        (Crawler.Bloom.add lenHash w1St.bloom w1U) l) = [w1L] := by decide
  have hbuild : Crawler.buildNewUrls 0 [w1L] = some [(w1L, (11 : ℚ))] := by
    unfold Crawler.buildNewUrls
    rw [w1L_priority]
    decide
  unfold Crawler.crawl_url
  simp only [hc, Bool.false_eq_true, if_false, hf]
  rw [if_pos (by decide : (0 : ℕ) < cxCfg.maxDepth)]
  rw [hfilter, hbuild]
  decide

/-- Witness for C1 on a successful crawl: the URL is admitted (bloom test
false), and the trace opens with `bloomAdd` then `fetchStart`. -/
theorem crawl_admission_witness :
    Crawler.crawl_url cxCfg lenHash w1Fetch w1St w1U 0 = some (w1St2, w1Tr, true)
    ∧ (((Crawler.Event.fetchStart w1U ∈ (w1St2, w1Tr, true).2.1)
        ↔ Crawler.Bloom.contains lenHash w1St.bloom w1U = false)
      ∧ (Crawler.Bloom.contains lenHash w1St.bloom w1U = true
          → (w1St2, w1Tr, true) = (w1St, [], false))
      ∧ (Crawler.Bloom.contains lenHash w1St.bloom w1U = false →
          (w1St2, w1Tr, true).2.1.take 2
              = [Crawler.Event.bloomAdd w1U, Crawler.Event.fetchStart w1U]
          ∧ (w1St2, w1Tr, true).1.bloom = Crawler.Bloom.add lenHash w1St.bloom w1U)) :=
  ⟨w1_crawl_eq, crawl_admission cxCfg lenHash w1Fetch w1St w1U 0 (w1St2, w1Tr, true) w1_crawl_eq⟩

/-- The C2 counterexample state: the discovered link `w1L` is already in
the bloom filter. -/
def c2St : Crawler.CrawlState := ⟨Crawler.Bloom.add lenHash [] w1L, [], [], []⟩

set_option maxHeartbeats 4000000 in
/-- C2 counterexample: a crawl at depth 0 (as the run loop always invokes
it) fetches a page whose discovered link `w1L` is within the depth bound
and has a defined §3 priority, yet the link is not enqueued — the frontier
stays empty — because it is already in the bloom filter; "every URL
discovered on a fetched page is enqueued" is false. -/
theorem crawl_enqueue_counterexample :
    w1L ∈ w1Page.links
    ∧ (0 : ℕ) < cxCfg.maxDepth
    ∧ Crawler.calculate_priority w1L.data 1 = some 11
    ∧ Crawler.crawl_url cxCfg lenHash w1Fetch c2St w1U 0
        = some (⟨Crawler.Bloom.add lenHash c2St.bloom w1U, [], [w1Page], [(w1U, w1L)]⟩,
                [.bloomAdd w1U, .fetchStart w1U, .publish w1U, .savedLinks w1U], true)
    ∧ ¬ ((w1L, (11 : ℚ)) ∈
        (⟨Crawler.Bloom.add lenHash c2St.bloom w1U, [], [w1Page], [(w1U, w1L)]⟩
          : Crawler.CrawlState).frontier) := by
  refine ⟨by decide, by decide, ?_, ?_, by decide⟩
  · rw [(calculate_priority_spec w1L.data 1
      ⟨strL "http", strL "bb", strL "/c", [], [], []⟩ w1L_parse).1]
    congr 1
    unfold Crawler.prioritySpec
    have hcount : (strL "/c").count '/' = 1 := by decide
    rw [hcount, if_neg (by decide), if_neg (by decide)]
    rw [max_eq_right (by norm_num)]
    norm_num
  · have hc : Crawler.Bloom.contains lenHash c2St.bloom w1U = false := by decide
    have hf : w1Fetch w1U = some w1Page := by decide
    have hfilter : w1Page.links.filter
        (fun l => ¬ Crawler.Bloom.contains lenHash
          (Crawler.Bloom.add lenHash c2St.bloom w1U) l) = [] := by decide
    unfold Crawler.crawl_url
    simp only [hc, Bool.false_eq_true, if_false, hf]
    rw [if_pos (by decide : (0 : ℕ) < cxCfg.maxDepth)]
    rw [hfilter]
    decide

/-- Witness for C2 on the successful witness crawl: the fetched page
exists, its not-bloom-seen link is enqueued at the depth-1 priority, and
one run-loop step is exactly a depth-0 `crawl_url` on the popped URL. -/
theorem crawl_enqueue_witness :
    Crawler.crawl_url cxCfg lenHash w1Fetch w1St w1U 0 = some (w1St2, w1Tr, true)
    ∧ ((∃ page, w1Fetch w1U = some page
        ∧ ((0 : ℕ) < cxCfg.maxDepth →
            ∀ l ∈ page.links,
              Crawler.Bloom.contains lenHash (Crawler.Bloom.add lenHash w1St.bloom w1U) l
                  = false →
              ∃ p : ℚ, Crawler.calculate_priority l.data (0 + 1) = some p
                ∧ (l, p) ∈ w1St2.frontier)
        ∧ (cxCfg.maxDepth ≤ 0 → w1St2.frontier = w1St.frontier))
      ∧ (∀ st3 : Crawler.CrawlState, ∀ u : String,
          Crawler.popMin st3.frontier = some u →
          Crawler.run_step cxCfg lenHash w1Fetch st3
            = (Crawler.crawl_url cxCfg lenHash w1Fetch
                { st3 with frontier := st3.frontier.filter (fun e => ¬ e.1 = u) } u 0).map
                some)) :=
  ⟨w1_crawl_eq, crawl_enqueue cxCfg lenHash w1Fetch w1St w1U 0 w1St2 w1Tr w1_crawl_eq⟩

/-- C3: on every non-empty link graph the PageRank vector returned by
`compute` sums to 1 within `10⁻⁶` (in the exact-arithmetic model the
renormalized sum is exactly 1, for any damping and iteration count). -/
theorem pagerank_sum_within_tolerance (n : ℕ) (edges : List (Fin n × Fin n))
    (d : ℚ) (iters : ℕ) (hn : 0 < n) :
    |(∑ t, PageRank.compute n edges d iters t) - 1| < 1 / 1000000 := by
  rw [compute_sum n edges d iters hn]
  norm_num

/-- Witness for C3 on the two-node graph with the single edge `0 → 1`,
damping `0.85`, 20 iterations. -/
theorem pagerank_sum_witness :
    0 < 2
    ∧ |(∑ t, PageRank.compute 2 [((0 : Fin 2), (1 : Fin 2))] (17/20) 20 t) - 1|
        < 1 / 1000000 :=
  ⟨by norm_num,
   pagerank_sum_within_tolerance 2 [((0 : Fin 2), (1 : Fin 2))] (17/20) 20 (by norm_num)⟩

/-- C5: with a damping factor `0 ≤ d < 1` and a non-empty graph, every
entry of the computed PageRank vector is at least `(1−d)/n`. -/
theorem pagerank_min_score (n : ℕ) (edges : List (Fin n × Fin n)) (d : ℚ)
    (iters : ℕ) (hn : 0 < n) (hd0 : 0 ≤ d) (hd1 : d < 1) (t : Fin n) :
    (1 - d) / n ≤ PageRank.compute n edges d iters t := by
  have hncast : (0:ℚ) < n := Nat.cast_pos.mpr hn
  have hr0 : ∑ _s : Fin n, (1 : ℚ) / n = 1 := by
    rw [Finset.sum_const, Finset.card_univ, Fintype.card_fin, nsmul_eq_mul]
    field_simp
  have hs : ∑ u, PageRank.iterLoop n edges d iters (fun _ => 1 / n) u = 1 :=
    iterLoop_sum n edges d iters _ hn hr0
  have hb : (1 - d) / n ≤ PageRank.iterLoop n edges d iters (fun _ => 1 / n) t := by
    refine iterLoop_ge n edges d iters _ hn hd0 (le_of_lt hd1)
      (fun _ => le_of_lt (by positivity)) (fun _ => ?_) t
    exact (div_le_div_iff_of_pos_right hncast).mpr (by linarith)
  unfold PageRank.compute
  rw [hs, div_one]
  exact hb

/-- Witness for C5 on the two-node graph with the single edge `0 → 1`,
damping `0.85`, 20 iterations, at node `0`. -/
theorem pagerank_min_score_witness :
    0 < 2 ∧ (0:ℚ) ≤ 17/20 ∧ (17/20 : ℚ) < 1
    ∧ (1 - 17/20) / 2 ≤ PageRank.compute 2 [((0 : Fin 2), (1 : Fin 2))] (17/20) 20 0 := by
  refine ⟨by norm_num, by norm_num, by norm_num, ?_⟩
  have h := pagerank_min_score 2 [((0 : Fin 2), (1 : Fin 2))] (17/20) 20
    (by norm_num) (by norm_num) (by norm_num) 0
  norm_num at h ⊢
  exact h

/-- C4: the query scorer replaces the score of each hit with a stored
PageRank by `0.7·score_ft + 0.3·score_pr·100`, leaves hits without a stored
PageRank unchanged, and returns the page's results sorted by the resulting
score in descending order (a permutation of the updated hits, sorted). -/
theorem query_blend (sha : String → String) (kv : String → Option ℚ)
    (results : List Query.Hit) :
    (Query.apply_pagerank_boost sha kv results).Perm
        (results.map (Query.boostSpec sha kv))
    ∧ (Query.apply_pagerank_boost sha kv results).Sorted
        (fun a b => b.score ≤ a.score)
    ∧ ∀ r : Query.Hit,
        (∀ pr : ℚ, kv (Query.readKey sha r.url) = some pr →
          (Query.boostOne sha kv r).score = 7/10 * r.score + 3/10 * pr * 100)
        ∧ (kv (Query.readKey sha r.url) = none → Query.boostOne sha kv r = r) := by
  have hones : Query.boostOne sha kv = Query.boostSpec sha kv := by
    funext r
    unfold Query.boostOne Query.boostSpec Query.readKey
    cases kv ("pagerank:" ++ (sha r.url).take 16) with
    | none => rfl
    | some pr =>
      have harith : (7/10 : ℚ) * r.score + 3/10 * pr * 100
          = 7/10 * r.score + 3/10 * (pr * 100) := by ring
      simp [harith]
  refine ⟨?_, ?_, ?_⟩
  · unfold Query.apply_pagerank_boost
    rw [hones]
    exact sortDesc_perm _
  · exact sortDesc_sorted _
  · intro r
    constructor
    · intro pr hpr
      simp [Query.boostOne, hpr]
    · intro hnone
      simp [Query.boostOne, hnone]

/-- Witness for C10 at a page with 105 links: the 100th link is written,
the 105th is not (the link table starts empty and the page URL differs from
all links). -/
theorem save_links_first_100_witness :
    (("http://p", "http://l99") ∈
        Crawler.save_links []
          ⟨"http://p", "t", (List.range 105).map (fun i => "http://l" ++ toString i), "p"⟩)
    ∧ ¬ (("http://p", "http://l104") ∈
        Crawler.save_links []
          ⟨"http://p", "t", (List.range 105).map (fun i => "http://l" ++ toString i), "p"⟩) := by
  constructor
  · exact (save_links_first_100 [] _).2 "http://l99" (by decide)
  · intro hmem
    rcases (save_links_first_100 [] _).1 _ hmem with h | ⟨_, h2⟩
    · cases h
    · revert h2; decide

section UrlLemmas

open Urllib

theorem splitOnFirst_not_mem (c : Char) (l : List Char) (h : c ∉ l) :
    splitOnFirst c l = (l, none) := by
  induction l with
  | nil => rfl
  | cons a rest ih =>
    unfold splitOnFirst
    rw [if_neg (by rintro rfl; exact h (List.mem_cons_self _ _))]
    rw [ih (fun hm => h (List.mem_cons_of_mem _ hm))]

theorem splitOnFirst_append (c : Char) (a b : List Char) (h : c ∉ a) :
    splitOnFirst c (a ++ c :: b) = (a, some b) := by
  induction a with
  | nil => simp [splitOnFirst]
  | cons x rest ih =>
    show splitOnFirst c (x :: (rest ++ c :: b)) = (x :: rest, some b)
    unfold splitOnFirst
    rw [if_neg (by rintro rfl; exact h (List.mem_cons_self _ _))]
    rw [ih (fun hm => h (List.mem_cons_of_mem _ hm))]

theorem takeWhile_append_all (P : Char → Bool) (a T : List Char)
    (ha : ∀ x ∈ a, P x = true) (hT : ∀ c, T.head? = some c → P c = false) :
    (a ++ T).takeWhile P = a ∧ (a ++ T).dropWhile P = T := by
  induction a with
  | nil =>
    cases T with
    | nil => exact ⟨rfl, rfl⟩
    | cons c T2 =>
      have := hT c rfl
      simp [List.takeWhile_cons, List.dropWhile_cons, this]
  | cons x rest ih =>
    have hx := ha x (List.mem_cons_self _ _)
    have := ih (fun y hy => ha y (List.mem_cons_of_mem _ hy))
    simp [List.takeWhile_cons, List.dropWhile_cons, hx, this.1, this.2]

end UrlLemmas


section UrlLemmas2

open Urllib

theorem parse_wf_core (s0 : Char) (srest n p : List Char) (q f : Option (List Char))
    (hsver : (s0 :: srest).all isSchemeChar = true) (halpha : s0.isAlpha = true)
    (hcolon : ':' ∉ (s0 :: srest))
    (hlower : (s0 :: srest).map Char.toLower = s0 :: srest)
    (hnoctl : isC0OrSpace s0 = false)
    (hsbytes : ∀ c ∈ s0 :: srest, isUnsafeByte c = false)
    (hn : ∀ c ∈ n, notNetlocDelim c = true ∧ c ≠ '[' ∧ c ≠ ']' ∧ isUnsafeByte c = false)
    (hp0 : p = [] ∨ p.take 1 = ['/'])
    (hp : ∀ c ∈ p, c ≠ '?' ∧ c ≠ '#' ∧ c ≠ ';' ∧ isUnsafeByte c = false)
    (hq : ∀ x ∈ q, ∀ c ∈ x, c ≠ '#' ∧ isUnsafeByte c = false)
    (hf : ∀ x ∈ f, ∀ c ∈ x, isUnsafeByte c = false) :
    urlparseM ((s0 :: srest) ++ ':' :: '/' :: '/' ::
        (n ++ (p ++ optPart '?' q ++ optPart '#' f)))
      = some ⟨s0 :: srest, n, p, [], q.getD [], f.getD []⟩ := by
  have hdrop : ((s0 :: srest) ++ ':' :: '/' :: '/' ::
      (n ++ (p ++ optPart '?' q ++ optPart '#' f))).dropWhile isC0OrSpace
      = (s0 :: srest) ++ ':' :: '/' :: '/' ::
        (n ++ (p ++ optPart '?' q ++ optPart '#' f)) := by
    show List.dropWhile isC0OrSpace (s0 :: (srest ++ _)) = _
    rw [List.dropWhile_cons, if_neg (by simp [hnoctl])]
    rfl
  have hfilt : ((s0 :: srest) ++ ':' :: '/' :: '/' ::
      (n ++ (p ++ optPart '?' q ++ optPart '#' f))).filter (fun c => ¬ isUnsafeByte c)
      = (s0 :: srest) ++ ':' :: '/' :: '/' ::
        (n ++ (p ++ optPart '?' q ++ optPart '#' f)) := by
    rw [List.filter_eq_self]
    intro c hc
    simp only [List.mem_append, List.mem_cons] at hc
    simp only [decide_eq_true_eq]
    rcases hc with hc | hc
    · simp [hsbytes c (by simpa using hc)]
    · rcases hc with rfl | hc
      · decide
      · rcases hc with rfl | hc
        · decide
        · rcases hc with rfl | hc
          · decide
          · rcases hc with hc | hc
            · simp [(hn c hc).2.2.2]
            · rcases hc with hc | hc
              · rcases hc with hc | hc
                · simp [(hp c hc).2.2.2]
                · cases q with
                  | none => cases hc
                  | some x =>
                    rcases (List.mem_cons.mp hc) with rfl | hc2
                    · decide
                    · simp [(hq x rfl c hc2).2]
              · cases f with
                | none => cases hc
                | some y =>
                  rcases (List.mem_cons.mp hc) with rfl | hc2
                  · decide
                  · simp [hf y rfl c hc2]
  have hscheme : splitScheme ((s0 :: srest) ++ ':' :: '/' :: '/' ::
      (n ++ (p ++ optPart '?' q ++ optPart '#' f)))
      = (s0 :: srest, '/' :: '/' :: (n ++ (p ++ optPart '?' q ++ optPart '#' f))) := by
    unfold splitScheme
    rw [splitOnFirst_append ':' (s0 :: srest) _ hcolon]
    show (if s0.isAlpha = true ∧ (s0 :: srest).all isSchemeChar = true
        then (List.map Char.toLower (s0 :: srest),
          '/' :: '/' :: (n ++ (p ++ optPart '?' q ++ optPart '#' f)))
        else _) = _
    rw [if_pos ⟨halpha, hsver⟩, hlower]
  have hThead : ∀ c, (p ++ optPart '?' q ++ optPart '#' f).head? = some c →
      notNetlocDelim c = false := by
    intro c hc
    rcases hp0 with rfl | hp1
    · cases q with
      | some x =>
        have : c = '?' := by
          simp [optPart] at hc
          exact hc.symm
        subst this
        decide
      | none =>
        cases f with
        | some y =>
          have : c = '#' := by
            simp [optPart] at hc
            exact hc.symm
          subst this
          decide
        | none => simp [optPart] at hc
    · cases p with
      | nil => simp at hp1
      | cons c0 p2 =>
        have hc0 : c0 = '/' := by simpa using hp1
        subst hc0
        have : c = '/' := by
          simp at hc
          exact hc.symm
        subst this
        decide
  have hnet := takeWhile_append_all notNetlocDelim n
      (p ++ optPart '?' q ++ optPart '#' f) (fun x hx => (hn x hx).1) hThead
  have hbr : ¬ (('[' ∈ n ∧ ']' ∉ n) ∨ (']' ∈ n ∧ '[' ∉ n)) := by
    rintro (⟨h1, h2⟩ | ⟨h1, h2⟩)
    · exact (hn _ h1).2.1 rfl
    · exact (hn _ h1).2.2.1 rfl
  have hnoq : '?' ∉ p := fun hm => (hp _ hm).1 rfl
  have hnoh : '#' ∉ p ++ optPart '?' q := by
    intro hmem
    rcases List.mem_append.mp hmem with hm | hm
    · exact (hp _ hm).2.1 rfl
    · cases q with
      | none => cases hm
      | some x =>
        rcases List.mem_cons.mp hm with heq | hm2
        · exact absurd heq (by decide)
        · exact (hq x rfl _ hm2).1 rfl
  unfold urlparseM urlsplitM
  rw [hdrop]
  simp only [hfilt, hscheme, List.take_succ_cons, List.take_zero, List.drop_succ_cons,
    List.drop_zero, if_true, hnet.1, hnet.2]
  rw [if_neg hbr]
  rcases f with _ | y <;> rcases q with _ | x
  · simp only [optPart, List.append_nil] at hnoh hnoq ⊢
    simp only [splitOnFirst_not_mem '#' p hnoh, splitOnFirst_not_mem '?' p hnoq,
      Option.map_some']
    rw [if_neg (by rintro ⟨h1, hsemi⟩; exact (hp _ hsemi).2.2.1 rfl)]
    rfl
  · simp only [optPart, List.append_nil] at hnoh ⊢
    simp only [splitOnFirst_not_mem '#' _ hnoh,
      splitOnFirst_append '?' p x hnoq, Option.map_some']
    rw [if_neg (by rintro ⟨h1, hsemi⟩; exact (hp _ hsemi).2.2.1 rfl)]
    rfl
  · simp only [optPart, List.append_nil] at hnoh ⊢
    simp only [splitOnFirst_append '#' p y hnoh,
      splitOnFirst_not_mem '?' p hnoq, Option.map_some']
    rw [if_neg (by rintro ⟨h1, hsemi⟩; exact (hp _ hsemi).2.2.1 rfl)]
    rfl
  · simp only [optPart] at hnoh ⊢
    simp only [splitOnFirst_append '#' _ y hnoh,
      splitOnFirst_append '?' p x hnoq, Option.map_some']
    rw [if_neg (by rintro ⟨h1, hsemi⟩; exact (hp _ hsemi).2.2.1 rfl)]
    rfl

end UrlLemmas2

section UrlLemmas3

open Urllib

theorem dropWhile_head_false (P : Char → Bool) : ∀ (l : List Char) (c : Char),
    (l.dropWhile P).head? = some c → P c = false := by
  intro l
  induction l with
  | nil => intro c h; cases h
  | cons a rest ih =>
    intro c h
    rw [List.dropWhile_cons] at h
    split at h
    · exact ih c h
    · next hp =>
      cases h
      simpa using hp

theorem rstripSlash_getLast (l : List Char) (c : Char)
    (h : (rstripSlash l).getLast? = some c) : c ≠ '/' := by
  unfold rstripSlash at h
  rw [List.getLast?_reverse] at h
  have hb := dropWhile_head_false (fun x => x = '/') l.reverse c h
  intro hc
  subst hc
  simp at hb

theorem rstripSlash_take (l : List Char) : ∃ m, rstripSlash l = l.take m := by
  refine ⟨(rstripSlash l).length, ?_⟩
  have hsplit : l = rstripSlash l ++ (l.reverse.takeWhile (fun x => x = '/')).reverse := by
    unfold rstripSlash
    rw [← List.reverse_append, List.takeWhile_append_dropWhile, List.reverse_reverse]
  calc rstripSlash l
      = (rstripSlash l ++ (l.reverse.takeWhile (fun x => x = '/')).reverse).take
          (rstripSlash l).length := (List.take_left _ _).symm
    _ = l.take (rstripSlash l).length := by rw [← hsplit]

theorem has80_mem_colon : ∀ (l : List Char), has80 l = true → ':' ∈ l := by
  intro l
  induction l with
  | nil => intro h; simp [has80] at h
  | cons a rest ih =>
    intro h
    simp only [has80, Bool.or_eq_true, decide_eq_true_eq] at h
    rcases h with ⟨rfl, h2⟩ | h2
    · exact List.mem_cons_self _ _
    · exact List.mem_cons_of_mem _ (ih h2)

theorem has80_eq_false (l : List Char) (h : ':' ∉ l) : has80 l = false := by
  cases h80 : has80 l
  · rfl
  · exact absurd (has80_mem_colon l h80) h

theorem has443_mem_colon : ∀ (l : List Char), has443 l = true → ':' ∈ l := by
  intro l
  induction l with
  | nil => intro h; simp [has443] at h
  | cons a rest ih =>
    intro h
    simp only [has443, Bool.or_eq_true, decide_eq_true_eq] at h
    rcases h with ⟨rfl, h2⟩ | h2
    · exact List.mem_cons_self _ _
    · exact List.mem_cons_of_mem _ (ih h2)

theorem has443_eq_false (l : List Char) (h : ':' ∉ l) : has443 l = false := by
  cases h443 : has443 l
  · rfl
  · exact absurd (has443_mem_colon l h443) h

theorem mem_dropPat80Fuel : ∀ (fuel : ℕ) (l : List Char) (c : Char),
    c ∈ dropPat80Fuel fuel l → c ∈ l := by
  intro fuel
  induction fuel with
  | zero =>
    intro l c h
    cases l with
    | nil => simpa [dropPat80Fuel] using h
    | cons a rest => simpa [dropPat80Fuel] using h
  | succ fuel ih =>
    intro l c h
    cases l with
    | nil => simpa [dropPat80Fuel] using h
    | cons a rest =>
      simp only [dropPat80Fuel] at h
      split at h
      · exact List.mem_cons_of_mem _ (List.mem_of_mem_drop (ih _ _ h))
      · rcases List.mem_cons.mp h with rfl | h2
        · exact List.mem_cons_self _ _
        · exact List.mem_cons_of_mem _ (ih _ _ h2)

theorem mem_dropPat443Fuel : ∀ (fuel : ℕ) (l : List Char) (c : Char),
    c ∈ dropPat443Fuel fuel l → c ∈ l := by
  intro fuel
  induction fuel with
  | zero =>
    intro l c h
    cases l with
    | nil => simpa [dropPat443Fuel] using h
    | cons a rest => simpa [dropPat443Fuel] using h
  | succ fuel ih =>
    intro l c h
    cases l with
    | nil => simpa [dropPat443Fuel] using h
    | cons a rest =>
      simp only [dropPat443Fuel] at h
      split at h
      · exact List.mem_cons_of_mem _ (List.mem_of_mem_drop (ih _ _ h))
      · rcases List.mem_cons.mp h with rfl | h2
        · exact List.mem_cons_self _ _
        · exact List.mem_cons_of_mem _ (ih _ _ h2)

theorem mem_dropPat80Fuel_keep : ∀ (fuel : ℕ) (l : List Char) (c : Char),
    c ≠ ':' → c ≠ '8' → c ≠ '0' → c ∈ l → c ∈ dropPat80Fuel fuel l := by
  intro fuel
  induction fuel with
  | zero =>
    intro l c _ _ _ h
    cases l with
    | nil => cases h
    | cons a rest => simpa [dropPat80Fuel] using h
  | succ fuel ih =>
    intro l c h1 h2 h3 h
    cases l with
    | nil => cases h
    | cons a rest =>
      simp only [dropPat80Fuel]
      split
      · next hcond =>
        rcases List.mem_cons.mp h with rfl | h4
        · exact absurd hcond.1 h1
        · have hr : c ∈ rest.take 2 ∨ c ∈ rest.drop 2 := by
            rw [← List.mem_append, List.take_append_drop]
            exact h4
          rcases hr with h5 | h5
          · rw [hcond.2] at h5
            rcases List.mem_cons.mp h5 with rfl | h6
            · exact absurd rfl h2
            · rcases List.mem_cons.mp h6 with rfl | h7
              · exact absurd rfl h3
              · cases h7
          · exact ih _ _ h1 h2 h3 h5
      · rcases List.mem_cons.mp h with rfl | h4
        · exact List.mem_cons_self _ _
        · exact List.mem_cons_of_mem _ (ih _ _ h1 h2 h3 h4)

theorem mem_dropPat443Fuel_keep : ∀ (fuel : ℕ) (l : List Char) (c : Char),
    c ≠ ':' → c ≠ '4' → c ≠ '3' → c ∈ l → c ∈ dropPat443Fuel fuel l := by
  intro fuel
  induction fuel with
  | zero =>
    intro l c _ _ _ h
    cases l with
    | nil => cases h
    | cons a rest => simpa [dropPat443Fuel] using h
  | succ fuel ih =>
    intro l c h1 h2 h3 h
    cases l with
    | nil => cases h
    | cons a rest =>
      simp only [dropPat443Fuel]
      split
      · next hcond =>
        rcases List.mem_cons.mp h with rfl | h4
        · exact absurd hcond.1 h1
        · have hr : c ∈ rest.take 3 ∨ c ∈ rest.drop 3 := by
            rw [← List.mem_append, List.take_append_drop]
            exact h4
          rcases hr with h5 | h5
          · rw [hcond.2] at h5
            rcases List.mem_cons.mp h5 with rfl | h6
            · exact absurd rfl h2
            · rcases List.mem_cons.mp h6 with rfl | h7
              · exact absurd rfl h2
              · rcases List.mem_cons.mp h7 with rfl | h8
                · exact absurd rfl h3
                · cases h8
          · exact ih _ _ h1 h2 h3 h5
      · rcases List.mem_cons.mp h with rfl | h4
        · exact List.mem_cons_self _ _
        · exact List.mem_cons_of_mem _ (ih _ _ h1 h2 h3 h4)

theorem dropPat80Fuel_no_colon : ∀ (fuel : ℕ) (l : List Char),
    l.length ≤ fuel → l.count ':' ≤ 1 → has80 l = true →
    ':' ∉ dropPat80Fuel fuel l := by
  intro fuel
  induction fuel with
  | zero =>
    intro l hlen _ _
    cases l with
    | nil => intro h; simp [dropPat80Fuel] at h
    | cons a rest => simp at hlen
  | succ fuel ih =>
    intro l hlen hcount h80
    cases l with
    | nil => intro h; simp [dropPat80Fuel] at h
    | cons a rest =>
      have hlen2 : rest.length ≤ fuel := by simp at hlen; omega
      have hcount2 : rest.count ':' ≤ 1 :=
        le_trans (((List.Sublist.refl rest).cons a).count_le ':') hcount
      simp only [dropPat80Fuel]
      split
      · next hcond =>
        obtain ⟨rfl, htake⟩ := hcond
        intro hmem
        have h1 : ':' ∈ rest.drop 2 := mem_dropPat80Fuel _ _ _ hmem
        have h2 : ':' ∈ rest := List.mem_of_mem_drop h1
        have h3 : rest.count ':' = 0 := by
          simp [List.count_cons] at hcount
          omega
        exact (List.count_eq_zero.mp h3) h2
      · next hcond =>
        have h80r : has80 rest = true := by
          simp only [has80, Bool.or_eq_true, decide_eq_true_eq] at h80
          rcases h80 with h | h
          · exact absurd h hcond
          · exact h
        by_cases hac : a = ':'
        · subst hac
          intro _
          have h3 : rest.count ':' = 0 := by
            simp [List.count_cons] at hcount
            omega
          exact (List.count_eq_zero.mp h3) (has80_mem_colon rest h80r)
        · intro hmem
          rcases List.mem_cons.mp hmem with h4 | h4
          · exact hac h4.symm
          · exact ih rest hlen2 hcount2 h80r h4

theorem dropPat443Fuel_no_colon : ∀ (fuel : ℕ) (l : List Char),
    l.length ≤ fuel → l.count ':' ≤ 1 → has443 l = true →
    ':' ∉ dropPat443Fuel fuel l := by
  intro fuel
  induction fuel with
  | zero =>
    intro l hlen _ _
    cases l with
    | nil => intro h; simp [dropPat443Fuel] at h
    | cons a rest => simp at hlen
  | succ fuel ih =>
    intro l hlen hcount h443
    cases l with
    | nil => intro h; simp [dropPat443Fuel] at h
    | cons a rest =>
      have hlen2 : rest.length ≤ fuel := by simp at hlen; omega
      have hcount2 : rest.count ':' ≤ 1 :=
        le_trans (((List.Sublist.refl rest).cons a).count_le ':') hcount
      simp only [dropPat443Fuel]
      split
      · next hcond =>
        obtain ⟨rfl, htake⟩ := hcond
        intro hmem
        have h1 : ':' ∈ rest.drop 3 := mem_dropPat443Fuel _ _ _ hmem
        have h2 : ':' ∈ rest := List.mem_of_mem_drop h1
        have h3 : rest.count ':' = 0 := by
          simp [List.count_cons] at hcount
          omega
        exact (List.count_eq_zero.mp h3) h2
      · next hcond =>
        have h443r : has443 rest = true := by
          simp only [has443, Bool.or_eq_true, decide_eq_true_eq] at h443
          rcases h443 with h | h
          · exact absurd h hcond
          · exact h
        by_cases hac : a = ':'
        · subst hac
          intro _
          have h3 : rest.count ':' = 0 := by
            simp [List.count_cons] at hcount
            omega
          exact (List.count_eq_zero.mp h3) (has443_mem_colon rest h443r)
        · intro hmem
          rcases List.mem_cons.mp hmem with h4 | h4
          · exact hac h4.symm
          · exact ih rest hlen2 hcount2 h443r h4

theorem map_toLower_eq_low : ∀ (pat x : List Char), (∀ d ∈ pat, d.toNat < 65) →
    (x.map Char.toLower = pat ↔ x = pat) := by
  intro pat
  induction pat with
  | nil =>
    intro x _
    cases x <;> simp
  | cons d ds ih =>
    intro x hd
    cases x with
    | nil => simp
    | cons a as =>
      simp only [List.map_cons, List.cons.injEq]
      exact and_congr
        (toLower_eq_nonletter a d (Or.inl (hd d (List.mem_cons_self _ _))))
        (ih as (fun y hy => hd y (List.mem_cons_of_mem _ hy)))

theorem has80_map_toLower : ∀ (l : List Char),
    has80 (l.map Char.toLower) = has80 l := by
  intro l
  induction l with
  | nil => rfl
  | cons a rest ih =>
    simp only [List.map_cons, has80, ih]
    refine congrArg (fun b => b || has80 rest) ?_
    rw [decide_eq_decide, ← List.map_take]
    exact and_congr (toLower_eq_nonletter a ':' (Or.inl (by decide)))
      (map_toLower_eq_low ['8', '0'] _ (by decide))

theorem has443_map_toLower : ∀ (l : List Char),
    has443 (l.map Char.toLower) = has443 l := by
  intro l
  induction l with
  | nil => rfl
  | cons a rest ih =>
    simp only [List.map_cons, has443, ih]
    refine congrArg (fun b => b || has443 rest) ?_
    rw [decide_eq_decide, ← List.map_take]
    exact and_congr (toLower_eq_nonletter a ':' (Or.inl (by decide)))
      (map_toLower_eq_low ['4', '4', '3'] _ (by decide))

theorem colon_mem_map_toLower (l : List Char) :
    ':' ∈ l.map Char.toLower ↔ ':' ∈ l := by
  constructor
  · intro h
    rcases List.mem_map.mp h with ⟨a, ha, haeq⟩
    rw [toLower_eq_nonletter a ':' (Or.inl (by decide))] at haeq
    rwa [haeq] at ha
  · intro h
    exact List.mem_map.mpr ⟨':', h,
      (toLower_eq_nonletter ':' ':' (Or.inl (by decide))).mpr rfl⟩

theorem map_toLower_idem (l : List Char) :
    (l.map Char.toLower).map Char.toLower = l.map Char.toLower := by
  rw [List.map_map]
  exact List.map_congr_left (fun a _ => toLower_idem a)

theorem toLower_ne_of_ne (c d : Char)
    (hd : d.toNat < 65 ∨ (90 < d.toNat ∧ d.toNat < 97) ∨ 122 < d.toNat)
    (h : c ≠ d) : Char.toLower c ≠ d :=
  fun hc => h ((toLower_eq_nonletter c d hd).mp hc)

theorem notNetlocDelim_iff (c : Char) :
    notNetlocDelim c = true ↔ c ≠ '/' ∧ c ≠ '?' ∧ c ≠ '#' := by
  simp [notNetlocDelim, not_or, and_assoc]

theorem isUnsafeByte_iff (c : Char) :
    isUnsafeByte c = false ↔ c ≠ '\t' ∧ c ≠ '\r' ∧ c ≠ '\n' := by
  simp [isUnsafeByte, not_or, and_assoc]

theorem netlocOK_toLower (d : Char)
    (hd : notNetlocDelim d = true ∧ d ≠ '[' ∧ d ≠ ']' ∧ isUnsafeByte d = false) :
    notNetlocDelim (Char.toLower d) = true ∧ Char.toLower d ≠ '['
      ∧ Char.toLower d ≠ ']' ∧ isUnsafeByte (Char.toLower d) = false := by
  obtain ⟨h1, h2, h3, h4⟩ := hd
  rw [notNetlocDelim_iff] at h1
  rw [isUnsafeByte_iff] at h4
  refine ⟨?_, ?_, ?_, ?_⟩
  · rw [notNetlocDelim_iff]
    exact ⟨toLower_ne_of_ne d '/' (Or.inl (by decide)) h1.1,
      toLower_ne_of_ne d '?' (Or.inl (by decide)) h1.2.1,
      toLower_ne_of_ne d '#' (Or.inl (by decide)) h1.2.2⟩
  · exact toLower_ne_of_ne d '[' (Or.inr (Or.inl (by decide))) h2
  · exact toLower_ne_of_ne d ']' (Or.inr (Or.inl (by decide))) h3
  · rw [isUnsafeByte_iff]
    exact ⟨toLower_ne_of_ne d '\t' (Or.inl (by decide)) h4.1,
      toLower_ne_of_ne d '\r' (Or.inl (by decide)) h4.2.1,
      toLower_ne_of_ne d '\n' (Or.inl (by decide)) h4.2.2⟩

end UrlLemmas3

section UrlLemmas4

open Urllib

theorem parse_wf (s n p : List Char) (q f : Option (List Char))
    (hs : s = strL "http" ∨ s = strL "https")
    (hn : ∀ c ∈ n, notNetlocDelim c = true ∧ c ≠ '[' ∧ c ≠ ']' ∧ isUnsafeByte c = false)
    (hp0 : p = [] ∨ p.take 1 = ['/'])
    (hp : ∀ c ∈ p, c ≠ '?' ∧ c ≠ '#' ∧ c ≠ ';' ∧ isUnsafeByte c = false)
    (hq : ∀ x ∈ q, ∀ c ∈ x, c ≠ '#' ∧ isUnsafeByte c = false)
    (hf : ∀ x ∈ f, ∀ c ∈ x, isUnsafeByte c = false) :
    urlparseM (s ++ ':' :: '/' :: '/' :: (n ++ (p ++ optPart '?' q ++ optPart '#' f)))
      = some ⟨s, n, p, [], q.getD [], f.getD []⟩ := by
  rcases hs with rfl | rfl
  · exact parse_wf_core 'h' (strL "ttp") n p q f (by decide) (by decide) (by decide)
      (by decide) (by decide) (by decide) hn hp0 hp hq hf
  · exact parse_wf_core 'h' (strL "ttps") n p q f (by decide) (by decide) (by decide)
      (by decide) (by decide) (by decide) hn hp0 hp hq hf

theorem unparse_wf (s n p q : List Char) (hs : s ≠ [])
    (hcond : n ≠ [] ∨ (s ∈ usesNetloc ∧ p.take 2 ≠ ['/', '/']))
    (hp0 : p = [] ∨ p.take 1 = ['/']) :
    urlunparseM s n p [] q [] =
      s ++ ':' :: '/' :: '/' ::
        (n ++ (p ++ optPart '?' (if q = [] then none else some q) ++ optPart '#' none)) := by
  unfold urlunparseM urlunsplitM
  have h1 : (¬ ([] : List Char) = []) = False := by simp
  have h2 : (¬ n = []) ∨ ¬ s = [] ∧ s ∈ usesNetloc ∧ ¬ List.take 2 p = ['/', '/'] := by
    rcases hcond with h | ⟨ha, hb⟩
    · exact Or.inl h
    · exact Or.inr ⟨hs, ha, hb⟩
  have h3 : ¬ ((¬ p = []) ∧ ¬ List.take 1 p = ['/']) := by
    rcases hp0 with rfl | hp1
    · simp
    · rintro ⟨_, h4⟩
      exact h4 hp1
  have hs2 : ¬ s = [] := hs
  simp only [ne_eq, h1, if_false, eq_false h3, eq_true hs2, true_and, if_true]
  have h2b : (¬ n = []) ∨ s ∈ usesNetloc ∧ ¬ List.take 2 p = ['/', '/'] := by
    rcases h2 with h | ⟨_, hb⟩
    · exact Or.inl h
    · exact Or.inr hb
  simp only [eq_true h2b, if_true]
  by_cases hq0 : q = []
  · subst hq0
    simp [optPart]
  · simp only [eq_false hq0, if_false, not_false_eq_true, if_true]
    simp [optPart, List.append_assoc]

theorem normalize_wf (s N p2 q : List Char)
    (hs : s = strL "http" ∨ s = strL "https")
    (hN : ∀ c ∈ N, notNetlocDelim c = true ∧ c ≠ '[' ∧ c ≠ ']' ∧ isUnsafeByte c = false)
    (hNne : N ≠ [])
    (hNlower : N.map Char.toLower = N)
    (hstrip80 : s = strL "http" → has80 N = false)
    (hstrip443 : s = strL "https" → has443 N = false)
    (hp20 : p2 = [] ∨ p2.take 1 = ['/'])
    (hplast : ¬ (p2 ≠ ['/'] ∧ p2.getLast? = some '/'))
    (hpch : ∀ c ∈ p2, c ≠ '?' ∧ c ≠ '#' ∧ c ≠ ';' ∧ isUnsafeByte c = false)
    (hqch : ∀ c ∈ q, c ≠ '#' ∧ isUnsafeByte c = false) :
    Crawler.normalize_url (urlunparseM s N p2 [] q [])
      = some (urlunparseM s N p2 [] q []) := by
  have hsne : s ≠ [] := by
    rcases hs with rfl | rfl <;> decide
  have hvshape := unparse_wf s N p2 q hsne (Or.inl hNne) hp20
  have hqd : (if q = [] then none else some q).getD [] = q := by
    by_cases hq0 : q = []
    · subst hq0; rfl
    · rw [if_neg hq0]; rfl
  have hparse2 : urlparseM (urlunparseM s N p2 [] q []) = some ⟨s, N, p2, [], q, []⟩ := by
    rw [hvshape]
    rw [parse_wf s N p2 (if q = [] then none else some q) none hs hN hp20 hpch
      (by
        intro x hx c hc
        by_cases hq0 : q = []
        · rw [if_pos hq0] at hx; cases hx
        · rw [if_neg hq0] at hx
          simp only [Option.mem_def, Option.some.injEq] at hx
          subst hx
          exact hqch c hc)
      (by intro x hx; cases hx)]
    rw [hqd]
    rfl
  unfold Crawler.normalize_url
  rw [hparse2]
  rw [Option.map_some']
  have h80 : ¬ (has80 N ∧ s = strL "http") := by
    rintro ⟨h1, h2⟩
    rw [hstrip80 h2] at h1
    cases h1
  have h443 : ¬ (has443 N ∧ s = strL "https") := by
    rintro ⟨h1, h2⟩
    rw [hstrip443 h2] at h1
    cases h1
  simp only [if_neg h80, if_neg h443, if_neg hplast, hNlower]

end UrlLemmas4

section UrlLemmas5

open Urllib

theorem path_facts (p p2 : List Char)
    (hdef : p2 = if p ≠ ['/'] ∧ p.getLast? = some '/' then rstripSlash p else p)
    (hp0 : p = [] ∨ p.take 1 = ['/'])
    (hp : ∀ c ∈ p, c ≠ '?' ∧ c ≠ '#' ∧ c ≠ ';' ∧ isUnsafeByte c = false) :
    (p2 = [] ∨ p2.take 1 = ['/'])
    ∧ (¬ (p2 ≠ ['/'] ∧ p2.getLast? = some '/'))
    ∧ (∀ c ∈ p2, c ≠ '?' ∧ c ≠ '#' ∧ c ≠ ';' ∧ isUnsafeByte c = false) := by
  have hm : ∃ m, p2 = p.take m := by
    rw [hdef]
    split
    · exact rstripSlash_take p
    · exact ⟨p.length, (List.take_length p).symm⟩
  obtain ⟨m, hm⟩ := hm
  refine ⟨?_, ?_, ?_⟩
  · by_cases hp2e : p2 = []
    · exact Or.inl hp2e
    · right
      rcases hp0 with rfl | h1
      · rw [hm] at hp2e
        simp at hp2e
      · have hm1 : 1 ≤ m := by
          by_contra hh
          have hm0 : m = 0 := by omega
          rw [hm0] at hm
          exact hp2e (by simpa using hm)
        rw [hm, List.take_take, min_eq_left hm1]
        exact h1
  · rw [hdef]
    split
    · next hcase =>
      rintro ⟨h5, h6⟩
      exact rstripSlash_getLast p '/' h6 rfl
    · next hcase =>
      exact hcase
  · intro c hc
    rw [hm] at hc
    exact hp c (List.take_subset m p hc)

theorem netloc_facts (s n N : List Char)
    (hdef : N = (if has443 (if has80 n ∧ s = strL "http" then dropPat80 n else n)
          ∧ s = strL "https"
        then dropPat443 (if has80 n ∧ s = strL "http" then dropPat80 n else n)
        else if has80 n ∧ s = strL "http" then dropPat80 n else n).map Char.toLower)
    (hs : s = strL "http" ∨ s = strL "https")
    (hn : ∀ c ∈ n, notNetlocDelim c = true ∧ c ≠ '[' ∧ c ≠ ']' ∧ isUnsafeByte c = false)
    (hn1 : n.count ':' ≤ 1)
    (hnk : ∃ c ∈ n, c ∉ ([':', '8', '0', '4', '3'] : List Char)) :
    (∀ c ∈ N, notNetlocDelim c = true ∧ c ≠ '[' ∧ c ≠ ']' ∧ isUnsafeByte c = false)
    ∧ N ≠ []
    ∧ N.map Char.toLower = N
    ∧ (s = strL "http" → has80 N = false)
    ∧ (s = strL "https" → has443 N = false) := by
  obtain ⟨c0, hc0, hc0k⟩ := hnk
  simp only [List.mem_cons, List.mem_singleton, not_or] at hc0k
  obtain ⟨hk1, hk2, hk3, hk4, hk5, -⟩ := hc0k
  have hfin : ∀ (m : List Char), (∀ c ∈ m, c ∈ n) → c0 ∈ m → ':' ∉ m →
      (∀ c ∈ m.map Char.toLower, notNetlocDelim c = true ∧ c ≠ '[' ∧ c ≠ ']'
        ∧ isUnsafeByte c = false)
      ∧ m.map Char.toLower ≠ []
      ∧ (m.map Char.toLower).map Char.toLower = m.map Char.toLower
      ∧ has80 (m.map Char.toLower) = false
      ∧ has443 (m.map Char.toLower) = false := by
    intro m hsub hc0m hnc
    refine ⟨?_, ?_, map_toLower_idem m, ?_, ?_⟩
    · intro c hc
      rcases List.mem_map.mp hc with ⟨d, hd, rfl⟩
      exact netlocOK_toLower d (hn d (hsub d hd))
    · exact List.ne_nil_of_mem (List.mem_map.mpr ⟨c0, hc0m, rfl⟩)
    · exact has80_eq_false _ (fun hcm => hnc ((colon_mem_map_toLower m).mp hcm))
    · exact has443_eq_false _ (fun hcm => hnc ((colon_mem_map_toLower m).mp hcm))
  have hfin2 : ∀ (m : List Char), (∀ c ∈ m, c ∈ n) → c0 ∈ m →
      (∀ c ∈ m.map Char.toLower, notNetlocDelim c = true ∧ c ≠ '[' ∧ c ≠ ']'
        ∧ isUnsafeByte c = false)
      ∧ m.map Char.toLower ≠ []
      ∧ (m.map Char.toLower).map Char.toLower = m.map Char.toLower := by
    intro m hsub hc0m
    refine ⟨?_, ?_, map_toLower_idem m⟩
    · intro c hc
      rcases List.mem_map.mp hc with ⟨d, hd, rfl⟩
      exact netlocOK_toLower d (hn d (hsub d hd))
    · exact List.ne_nil_of_mem (List.mem_map.mpr ⟨c0, hc0m, rfl⟩)
  rcases hs with rfl | rfl
  · have h443c : ¬ (has443 (if has80 n ∧ strL "http" = strL "http" then dropPat80 n else n)
        ∧ strL "http" = strL "https") := by
      rintro ⟨_, hh⟩
      exact absurd hh (by decide)
    rw [if_neg h443c] at hdef
    by_cases h80 : has80 n = true
    · rw [if_pos ⟨h80, rfl⟩] at hdef
      have hnc : ':' ∉ dropPat80 n :=
        dropPat80Fuel_no_colon n.length n le_rfl hn1 h80
      have hres := hfin (dropPat80 n) (fun c hc => mem_dropPat80Fuel _ _ _ hc)
        (mem_dropPat80Fuel_keep n.length n c0 hk1 hk2 hk3 hc0) hnc
      rw [hdef]
      exact ⟨hres.1, hres.2.1, hres.2.2.1, fun _ => hres.2.2.2.1, fun _ => hres.2.2.2.2⟩
    · rw [if_neg (fun hh => h80 hh.1)] at hdef
      have hres := hfin2 n (fun c hc => hc) hc0
      rw [hdef]
      refine ⟨hres.1, hres.2.1, hres.2.2, fun _ => ?_, fun hh => absurd hh (by decide)⟩
      rw [has80_map_toLower]
      exact Bool.eq_false_iff.mpr h80
  · have h80c : ¬ (has80 n ∧ strL "https" = strL "http") := by
      rintro ⟨_, hh⟩
      exact absurd hh (by decide)
    rw [if_neg h80c] at hdef
    by_cases h443 : has443 n = true
    · rw [if_pos ⟨h443, rfl⟩] at hdef
      have hnc : ':' ∉ dropPat443 n :=
        dropPat443Fuel_no_colon n.length n le_rfl hn1 h443
      have hres := hfin (dropPat443 n) (fun c hc => mem_dropPat443Fuel _ _ _ hc)
        (mem_dropPat443Fuel_keep n.length n c0 hk1 hk4 hk5 hc0) hnc
      rw [hdef]
      exact ⟨hres.1, hres.2.1, hres.2.2.1, fun hh => absurd hh (by decide),
        fun _ => hres.2.2.2.2⟩
    · rw [if_neg (fun hh => h443 hh.1)] at hdef
      have hres := hfin2 n (fun c hc => hc) hc0
      rw [hdef]
      refine ⟨hres.1, hres.2.1, hres.2.2, fun hh => absurd hh (by decide), fun _ => ?_⟩
      rw [has443_map_toLower]
      exact Bool.eq_false_iff.mpr h443

end UrlLemmas5




/-- C6 (amended): on a parsed URL whose scheme is `http` or `https`, whose
netloc is bracket-free, delimiter-free, has at most one `':'` and at least
one character outside `:8043`, whose path is absolute (or empty) and free of
`?#;`, with no params, and whose query contains no `'#'`, the crawler's URL
normalization is idempotent. -/
theorem normalize_idempotent (u : List Char) (pr : Urllib.ParseRes)
    (h : Urllib.urlparseM u = some pr)
    (hs : pr.scheme = strL "http" ∨ pr.scheme = strL "https")
    (hn : ∀ c ∈ pr.netloc, Urllib.notNetlocDelim c = true ∧ c ≠ '[' ∧ c ≠ ']'
      ∧ Urllib.isUnsafeByte c = false)
    (hn1 : pr.netloc.count ':' ≤ 1)
    (hnk : ∃ c ∈ pr.netloc, c ∉ ([':', '8', '0', '4', '3'] : List Char))
    (hp0 : pr.path = [] ∨ pr.path.take 1 = ['/'])
    (hp : ∀ c ∈ pr.path, c ≠ '?' ∧ c ≠ '#' ∧ c ≠ ';' ∧ Urllib.isUnsafeByte c = false)
    (hpar : pr.params = [])
    (hq : ∀ c ∈ pr.query, c ≠ '#' ∧ Urllib.isUnsafeByte c = false) :
    (Crawler.normalize_url u).bind Crawler.normalize_url = Crawler.normalize_url u := by
  obtain ⟨s, n, p, par, qy, fr⟩ := pr
  simp only at hs hn hn1 hnk hp0 hp hpar hq
  subst hpar
  have hv : Crawler.normalize_url u = some (Urllib.urlunparseM s
      ((if has443 (if has80 n ∧ s = strL "http" then dropPat80 n else n)
            ∧ s = strL "https"
          then dropPat443 (if has80 n ∧ s = strL "http" then dropPat80 n else n)
          else if has80 n ∧ s = strL "http" then dropPat80 n else n).map Char.toLower)
      (if p ≠ ['/'] ∧ p.getLast? = some '/' then rstripSlash p else p)
      [] qy []) := by
    unfold Crawler.normalize_url
    rw [h]
    rfl
  have hnf := netloc_facts s n _ rfl hs hn hn1 hnk
  have hpf := path_facts p _ rfl hp0 hp
  rw [hv]
  exact normalize_wf s _ _ qy hs hnf.1 hnf.2.1 hnf.2.2.1 hnf.2.2.2.1 hnf.2.2.2.2
    hpf.1 hpf.2.1 hpf.2.2 hq

/-- C6: normalization is not idempotent in general: `http://h/p;/` maps to
`http://h/p;` (trailing slash stripped), which maps to `http://h/p`
(urlparse now reads the final `;` as a params separator and urlunparse does
not restore it). -/
theorem normalize_idempotent_counterexample :
    (Crawler.normalize_url (strL "http://h/p;/")).bind Crawler.normalize_url
      ≠ Crawler.normalize_url (strL "http://h/p;/") := by
  decide

/-- Witness for C6 at `HTTP://Ex.COM:80/a/b/?x=1#frag` (scheme case folded
and parsed, netloc `Ex.COM:80`, path `/a/b/`, query `x=1`). -/
theorem normalize_idempotent_witness :
    Urllib.urlparseM (strL "HTTP://Ex.COM:80/a/b/?x=1#frag")
      = some ⟨strL "http", strL "Ex.COM:80", strL "/a/b/", [], strL "x=1", strL "frag"⟩
    ∧ (Crawler.normalize_url (strL "HTTP://Ex.COM:80/a/b/?x=1#frag")).bind
        Crawler.normalize_url
      = Crawler.normalize_url (strL "HTTP://Ex.COM:80/a/b/?x=1#frag") := by
  refine ⟨by decide, ?_⟩
  exact normalize_idempotent (strL "HTTP://Ex.COM:80/a/b/?x=1#frag")
    ⟨strL "http", strL "Ex.COM:80", strL "/a/b/", [], strL "x=1", strL "frag"⟩
    (by decide) (Or.inl rfl) (by decide) (by decide) (by decide)
    (Or.inr (by decide)) (by decide) rfl (by decide)

end SearchEngine
